import Mathlib

/-!
Shallow embedding of the go-struct-sync diff/patch engine
(`compare.go`, `change.go`) and proofs about it.

The Go code works by reflection over arbitrary struct types.  The
embedding models the reflection universe that the engine actually
touches: field types of kind string, int, bool, float64, pointer,
slice and empty interface, together with the dynamically typed
`interface{}` payloads stored in `Change.OldValue` / `Change.NewValue`.
Machine integers never overflow in the engine (it only moves values
around), so `Int` models Go's `int` exactly; `float64` payloads appear
only as JSON-decoding results and are modelled at integral values.
-/

set_option autoImplicit false

namespace StructSync

/-- Go types (reflect kinds) of the struct fields and dynamic values the
engine manipulates.  `tIface` is the empty interface `interface{}`. -/
inductive Ty where
  | tString : Ty
  | tInt : Ty
  | tBool : Ty
  | tFloat : Ty
  | tIface : Ty
  | tPtr (elem : Ty) : Ty
  | tSlice (elem : Ty) : Ty
deriving DecidableEq, Repr

/-- Dynamically typed Go values (`interface{}` payloads).  A typed nil
pointer `(*T)(nil)` is `vPtr T none` and a nil slice `[]T(nil)` is
`vSlice T none`; both are distinct from the untyped nil interface
`vNil`, exactly as in Go.  `vFloat` is a `float64` carrying an integral
value (the only floats the engine ever produces, via JSON decoding). -/
inductive Value where
  | vString (s : String) : Value
  | vInt (n : Int) : Value
  | vBool (b : Bool) : Value
  | vFloat (m : Int) : Value
  | vNil : Value
  | vPtr (elem : Ty) (v : Option Value) : Value
  | vSlice (elem : Ty) (vs : Option (List Value)) : Value
deriving Repr

mutual

/-- `reflect.DeepEqual` on the modelled universe: values of different
dynamic types are unequal; pointers compare their pointees (addresses
are never compared because `DeepEqual` follows pointers); slices
compare nilness, length and elements; everything else compares by
value. -/
def deepEqual : Value → Value → Bool
  | .vString a, .vString b => a == b
  | .vInt a, .vInt b => a == b
  | .vBool a, .vBool b => a == b
  | .vFloat a, .vFloat b => a == b
  | .vNil, .vNil => true
  | .vPtr e1 none, .vPtr e2 none => e1 == e2
  | .vPtr e1 (some a), .vPtr e2 (some b) => e1 == e2 && deepEqual a b
  | .vSlice e1 none, .vSlice e2 none => e1 == e2
  | .vSlice e1 (some as), .vSlice e2 (some bs) => e1 == e2 && deepEqualList as bs
  | _, _ => false

def deepEqualList : List Value → List Value → Bool
  | [], [] => true
  | a :: as, b :: bs => deepEqual a b && deepEqualList as bs
  | _, _ => false

end

mutual

def deepEqual_iff : ∀ a b : Value, deepEqual a b = true ↔ a = b
  | .vString a, .vString b => by simp [deepEqual]
  | .vInt a, .vInt b => by simp [deepEqual]
  | .vBool a, .vBool b => by simp [deepEqual]
  | .vFloat a, .vFloat b => by simp [deepEqual]
  | .vNil, .vNil => by simp [deepEqual]
  | .vPtr e1 none, .vPtr e2 none => by simp [deepEqual]
  | .vPtr e1 (some a), .vPtr e2 (some b) => by
      simp [deepEqual, deepEqual_iff a b]
  | .vSlice e1 none, .vSlice e2 none => by simp [deepEqual]
  | .vSlice e1 (some as), .vSlice e2 (some bs) => by
      simp [deepEqual, deepEqualList_iff as bs]
  | .vString _, .vInt _ => by simp [deepEqual]
  | .vString _, .vBool _ => by simp [deepEqual]
  | .vString _, .vFloat _ => by simp [deepEqual]
  | .vString _, .vNil => by simp [deepEqual]
  | .vString _, .vPtr _ _ => by simp [deepEqual]
  | .vString _, .vSlice _ _ => by simp [deepEqual]
  | .vInt _, .vString _ => by simp [deepEqual]
  | .vInt _, .vBool _ => by simp [deepEqual]
  | .vInt _, .vFloat _ => by simp [deepEqual]
  | .vInt _, .vNil => by simp [deepEqual]
  | .vInt _, .vPtr _ _ => by simp [deepEqual]
  | .vInt _, .vSlice _ _ => by simp [deepEqual]
  | .vBool _, .vString _ => by simp [deepEqual]
  | .vBool _, .vInt _ => by simp [deepEqual]
  | .vBool _, .vFloat _ => by simp [deepEqual]
  | .vBool _, .vNil => by simp [deepEqual]
  | .vBool _, .vPtr _ _ => by simp [deepEqual]
  | .vBool _, .vSlice _ _ => by simp [deepEqual]
  | .vFloat _, .vString _ => by simp [deepEqual]
  | .vFloat _, .vInt _ => by simp [deepEqual]
  | .vFloat _, .vBool _ => by simp [deepEqual]
  | .vFloat _, .vNil => by simp [deepEqual]
  | .vFloat _, .vPtr _ _ => by simp [deepEqual]
  | .vFloat _, .vSlice _ _ => by simp [deepEqual]
  | .vNil, .vString _ => by simp [deepEqual]
  | .vNil, .vInt _ => by simp [deepEqual]
  | .vNil, .vBool _ => by simp [deepEqual]
  | .vNil, .vFloat _ => by simp [deepEqual]
  | .vNil, .vPtr _ _ => by simp [deepEqual]
  | .vNil, .vSlice _ _ => by simp [deepEqual]
  | .vPtr _ _, .vString _ => by simp [deepEqual]
  | .vPtr _ _, .vInt _ => by simp [deepEqual]
  | .vPtr _ _, .vBool _ => by simp [deepEqual]
  | .vPtr _ _, .vFloat _ => by simp [deepEqual]
  | .vPtr _ _, .vNil => by simp [deepEqual]
  | .vPtr _ none, .vPtr _ (some _) => by simp [deepEqual]
  | .vPtr _ (some _), .vPtr _ none => by simp [deepEqual]
  | .vPtr _ _, .vSlice _ _ => by simp [deepEqual]
  | .vSlice _ _, .vString _ => by simp [deepEqual]
  | .vSlice _ _, .vInt _ => by simp [deepEqual]
  | .vSlice _ _, .vBool _ => by simp [deepEqual]
  | .vSlice _ _, .vFloat _ => by simp [deepEqual]
  | .vSlice _ _, .vNil => by simp [deepEqual]
  | .vSlice _ _, .vPtr _ _ => by simp [deepEqual]
  | .vSlice _ none, .vSlice _ (some _) => by simp [deepEqual]
  | .vSlice _ (some _), .vSlice _ none => by simp [deepEqual]

def deepEqualList_iff : ∀ as bs : List Value, deepEqualList as bs = true ↔ as = bs
  | [], [] => by simp [deepEqualList]
  | a :: as, b :: bs => by
      simp [deepEqualList, deepEqual_iff a b, deepEqualList_iff as bs]
  | [], _ :: _ => by simp [deepEqualList]
  | _ :: _, [] => by simp [deepEqualList]

end

instance : DecidableEq Value := fun a b =>
  decidable_of_iff (deepEqual a b = true) (deepEqual_iff a b)

/-- One field of a struct type: name, exported flag (Go capitalisation)
and declared type. -/
structure FieldDecl where
  name : String
  exported : Bool
  ty : Ty
deriving DecidableEq, Repr

/-- A declared struct type.  `sname` is the declared type identity:
`reflect.Type` equality on structs is declared-type identity, modelled
as equality of `Shape`. -/
structure Shape where
  sname : String
  fields : List FieldDecl
deriving DecidableEq, Repr

/-- A struct instance: its declared type plus one dynamic value per
field, in declaration order. -/
structure Record where
  shape : Shape
  vals : List Value
deriving DecidableEq, Repr

/-- Field names of a struct type are distinct (guaranteed by the Go
compiler for the unembedded structs the repository works with). -/
def Shape.namesNodup (s : Shape) : Bool :=
  decide (s.fields.map FieldDecl.name).Nodup

/-- The dynamic (concrete) type of a non-nil value, as
`reflect.ValueOf(x).Type()` would report it.  The untyped nil interface
has no type; `reflect.ValueOf(nil)` is the invalid zero `reflect.Value`
(see `ApplyChanges`, where calling `.Type()` on it panics). -/
def tyOf : Value → Option Ty
  | .vString _ => some .tString
  | .vInt _ => some .tInt
  | .vBool _ => some .tBool
  | .vFloat _ => some .tFloat
  | .vNil => none
  | .vPtr e _ => some (.tPtr e)
  | .vSlice e _ => some (.tSlice e)

/-- Does a dynamic value inhabit a declared field type?  An
`interface{}` field holds any value (including the nil interface);
other fields hold exactly the values of their declared type. -/
def valHasTy (v : Value) (t : Ty) : Bool :=
  match t with
  | .tIface => true
  | _ => tyOf v == some t

/-- `reflect.Zero(t)`: the zero value of a type (empty string, 0,
false, nil pointer/slice, nil interface). -/
def zeroValue : Ty → Value
  | .tString => .vString ""
  | .tInt => .vInt 0
  | .tBool => .vBool false
  | .tFloat => .vFloat 0
  | .tIface => .vNil
  | .tPtr e => .vPtr e none
  | .tSlice e => .vSlice e none

/-- Go's conversion `rune(n)` to `string`: a valid code point converts
to the one-character string, anything else to the replacement
character. -/
def goIntToString (n : Int) : String :=
  if 0 ≤ n ∧ n < 1114112 ∧ ¬(55296 ≤ n ∧ n < 57344) then
    String.mk [Char.ofNat n.toNat]
  else
    String.mk [Char.ofNat 65533]

/-- `reflect.Type.ConvertibleTo` restricted to the modelled universe:
every type converts to `interface{}`; the numeric types interconvert;
`int` converts to `string` (rune conversion); pointer and slice types
convert only to themselves (no distinct named types with identical
underlying types are modelled). -/
def ConvertibleTo (src dst : Ty) : Bool :=
  match src, dst with
  | _, .tIface => true
  | .tInt, .tInt => true
  | .tInt, .tFloat => true
  | .tInt, .tString => true
  | .tFloat, .tFloat => true
  | .tFloat, .tInt => true
  | .tString, .tString => true
  | .tBool, .tBool => true
  | .tPtr a, .tPtr b => a == b
  | .tSlice a, .tSlice b => a == b
  | _, _ => false

/-- `reflect.Value.Convert`: the value produced by a permitted
conversion.  Float payloads are integral, so float-to-int truncation is
exact.  Conversion to `interface{}` and identity conversions return the
value unchanged. -/
def convertVal (v : Value) (dst : Ty) : Value :=
  match v, dst with
  | .vInt n, .tFloat => .vFloat n
  | .vInt n, .tString => .vString (goIntToString n)
  | .vFloat m, .tInt => .vInt m
  | v, _ => v

/-- `type ChangeType string` (compare.go line 11). -/
abbrev ChangeType := String

/-- `Modified ChangeType = "modified"` (compare.go line 14). -/
def Modified : ChangeType := "modified"

/-- `Deleted ChangeType = "deleted"` (compare.go line 15). -/
def Deleted : ChangeType := "deleted"

/-- `Added ChangeType = "added"` (compare.go line 16). -/
def Added : ChangeType := "added"

/-- `type Change struct` (compare.go lines 20-25).  `OldValue` and
`NewValue` are `interface{}` payloads; the nil interface is
`Value.vNil`. -/
structure Change where
  Field : String
  ChangeType : ChangeType
  OldValue : Value
  NewValue : Value
deriving DecidableEq, Repr

/-- A value passed to the engine as `interface{}`: a struct, a non-nil
pointer to a struct, a nil pointer to a struct, or any other (primitive
or pointer-to-non-struct) value, which the engine rejects after
dereferencing. -/
inductive Input where
  | strct (r : Record)
  | ptr (r : Record)
  | nilPtr (s : Shape)
  | prim (v : Value)
deriving DecidableEq, Repr

/-- The one level of pointer dereferencing at the top of
`CompareStructs` (compare.go lines 32-37) and `ApplyChanges`
(change.go lines 12-16), followed by the struct-kind test: `some r`
when the (dereferenced) value is a struct.  Dereferencing a nil
pointer yields the invalid `reflect.Value` (kind `Invalid`, not
`Struct`), and primitives or pointers to non-structs never reach kind
`Struct` either. -/
def derefStruct : Input → Option Record
  | .strct r => some r
  | .ptr r => some r
  | .nilPtr _ => none
  | .prim _ => none

/-- `field.oldField.IsNil()` for a pointer-kinded field. -/
def ptrIsNil : Value → Bool
  | .vPtr _ none => true
  | _ => false

/-- `field.oldField.IsNil()` for an interface-kinded field: the field
is nil exactly when it holds the nil interface. -/
def ifaceIsNil (v : Value) : Bool :=
  v == .vNil

/-- `field.oldField.Len()` for a slice-kinded field (a nil slice has
length 0). -/
def sliceLen : Value → Nat
  | .vSlice _ (some vs) => vs.length
  | _ => 0

/-- `field.oldField.String()` for a string-kinded field. -/
def stringVal : Value → String
  | .vString s => s
  | _ => ""

/-- The change-type classification of `CompareStructs` (compare.go
lines 79-100): start from `Modified`, then refine by the field's
declared kind — pointer/interface by nilness, slice by length, string
by emptiness. -/
def classify (ty : Ty) (ov nv : Value) : ChangeType :=
  match ty with
  | .tPtr _ =>
    if !ptrIsNil ov && ptrIsNil nv then Deleted
    else if ptrIsNil ov && !ptrIsNil nv then Added
    else Modified
  | .tIface =>
    if !ifaceIsNil ov && ifaceIsNil nv then Deleted
    else if ifaceIsNil ov && !ifaceIsNil nv then Added
    else Modified
  | .tSlice _ =>
    if sliceLen ov > 0 && sliceLen nv == 0 then Deleted
    else if sliceLen ov == 0 && sliceLen nv > 0 then Added
    else Modified
  | .tString =>
    if stringVal ov != "" && stringVal nv == "" then Deleted
    else if stringVal ov == "" && stringVal nv != "" then Added
    else Modified
  | _ => Modified

/-- The per-field loop of `CompareStructs` (compare.go lines 67-114):
skip unexported fields (`CanInterface` is false), emit one `Change`
when `reflect.DeepEqual` fails, classified by `classify`.  The loop
body runs one goroutine per field appending under a mutex; the
sequential field order used here is one admissible completion order,
and no theorem below depends on the order of the returned list beyond
what holds for every order — except that emission per field is
order-independent. -/
def diffAux : List FieldDecl → List Value → List Value → List Change
  | f :: fs, ov :: os, nv :: ns =>
    (if f.exported && !deepEqual ov nv then
      [{ Field := f.name, ChangeType := classify f.ty ov nv,
         OldValue := ov, NewValue := nv }]
     else []) ++ diffAux fs os ns
  | _, _, _ => []

/-- `CompareStructs` (compare.go lines 28-118): dereference one level
of pointers, require both inputs to be structs, require identical
declared types, then diff the fields. -/
def CompareStructs (old new : Input) : Except String (List Change) :=
  match derefStruct old, derefStruct new with
  | some o, some n =>
    if o.shape = n.shape then .ok (diffAux o.shape.fields o.vals n.vals)
    else .error "both structs must be of the same type"
  | _, _ => .error "both arguments must be structs"

/-- Observable outcome of `ApplyChanges`: a returned result, a
returned error, or a runtime panic raised inside the reflect package
(the last is distinct from an error return — the caller never receives
it as a value). -/
inductive Outcome where
  | ok (result : Input) : Outcome
  | err (msg : String) : Outcome
  | panicked (msg : String) : Outcome
deriving DecidableEq, Repr

/-- What the change-application switch of `ApplyChanges` (change.go
lines 55-78) does to one resolved, settable field. -/
inductive FieldWrite where
  | setTo (v : Value) : FieldWrite
  | noop : FieldWrite
  | convErr : FieldWrite
  | typePanic : FieldWrite
deriving DecidableEq, Repr

/-- Is the field's kind one of `Ptr`, `Interface`, `Map`, `Slice`
(change.go lines 60-61), the kinds whose fields may be set to zero when
`NewValue` is the nil interface? -/
def nilAssignable : Ty → Bool
  | .tPtr _ => true
  | .tIface => true
  | .tSlice _ => true
  | _ => false

/-- The switch body of `ApplyChanges` (change.go lines 55-78) for a
settable field of type `ty`: `Deleted` zeroes the field; `Modified` and
`Added` set the new value — zero on the nil fast path, directly on
exact type match, through `Convert` when convertible, `ConversionError`
otherwise; any other tag matches no case and the change is skipped.
When `NewValue` is the nil interface and the field kind is not
nil-assignable, the code falls through to
`reflect.ValueOf(change.NewValue).Type()` on the invalid zero
`reflect.Value`, which panics. -/
def fieldWrite (ty : Ty) (c : Change) : FieldWrite :=
  if c.ChangeType == Deleted then .setTo (zeroValue ty)
  else if c.ChangeType == Modified || c.ChangeType == Added then
    if c.NewValue == .vNil && nilAssignable ty then .setTo (zeroValue ty)
    else
      match tyOf c.NewValue with
      | none => .typePanic
      | some src =>
        if src == ty then .setTo c.NewValue
        else if ConvertibleTo src ty then .setTo (convertVal c.NewValue ty)
        else .convErr
  else .noop

/-- `resultVal.FieldByName(name)` on an unembedded struct: the unique
field with that name, if any (valid but unsettable when unexported). -/
def findField : List FieldDecl → String → Option FieldDecl
  | [], _ => none
  | f :: fs, n => if f.name == n then some f else findField fs n

/-- `field.Set(...)` through a `FieldByName` handle: replace the value
slot of the first field with the given name. -/
def setField : List FieldDecl → List Value → String → Value → List Value
  | f :: fs, v :: vs, n, x =>
    if f.name == n then x :: vs else v :: setField fs vs n x
  | _, vs, _, _ => vs

/-- Result of applying a prefix of the change list to the in-progress
field values. -/
inductive StepRes where
  | ok (vals : List Value) : StepRes
  | err (msg : String) : StepRes
  | panicked (msg : String) : StepRes
deriving DecidableEq, Repr

/-- One iteration of the change loop of `ApplyChanges` (change.go lines
38-79): resolve the field by name (`FieldError` when absent), require
it settable (`FieldError` when unexported), then run the switch.  The
per-call `fieldCache` only avoids repeated reflection lookups and has
no observable effect, so it is not modelled. -/
def applyOne (fields : List FieldDecl) (vals : List Value) (c : Change) : StepRes :=
  match findField fields c.Field with
  | none => .err ("field " ++ c.Field ++ " not found")
  | some f =>
    if !f.exported then .err ("field " ++ c.Field ++ " is not settable")
    else
      match fieldWrite f.ty c with
      | .setTo v => .ok (setField fields vals c.Field v)
      | .noop => .ok vals
      | .convErr => .err ("cannot convert value for field " ++ c.Field)
      | .typePanic => .panicked "reflect: call of reflect.Value.Type on zero Value"

/-- The change loop of `ApplyChanges`, applied in list order; the first
error or panic aborts the call. -/
def applyAll (fields : List FieldDecl) : List Value → List Change → StepRes
  | vals, [] => .ok vals
  | vals, c :: cs =>
    match applyOne fields vals c with
    | .ok vals2 => applyAll fields vals2 cs
    | .err m => .err m
    | .panicked m => .panicked m

/-- The copy loop of `ApplyChanges` (change.go lines 27-32): the result
starts as the zero struct (`reflect.New`), then every field that is
both readable (`CanInterface`: exported) and settable (`CanSet`:
exported) is copied; unexported fields keep their zero values. -/
def initVals (fields : List FieldDecl) (vals : List Value) : List Value :=
  List.zipWith (fun f v => if f.exported then v else zeroValue f.ty) fields vals

/-- `ApplyChanges` (change.go lines 9-88): validate the original,
build a fresh copy, apply each change in order, and return the result
with the caller's passing convention (pointer in, pointer out). -/
def ApplyChanges (original : Input) (changes : List Change) : Outcome :=
  match original with
  | .strct r =>
    match applyAll r.shape.fields (initVals r.shape.fields r.vals) changes with
    | .ok vs => .ok (.strct ⟨r.shape, vs⟩)
    | .err m => .err m
    | .panicked m => .panicked m
  | .ptr r =>
    match applyAll r.shape.fields (initVals r.shape.fields r.vals) changes with
    | .ok vs => .ok (.ptr ⟨r.shape, vs⟩)
    | .err m => .err m
    | .panicked m => .panicked m
  | .nilPtr _ => .err "original must be a struct"
  | .prim _ => .err "original must be a struct"

/-- One entry of `RevertChanges` (compare.go lines 148-169): swap the
values, flip `Added`/`Deleted`, keep `Modified`; any other tag matches
no switch case and leaves the zero `ChangeType` (the empty string). -/
def revertOne (c : Change) : Change :=
  { Field := c.Field, OldValue := c.NewValue, NewValue := c.OldValue,
    ChangeType :=
      if c.ChangeType == Added then Deleted
      else if c.ChangeType == Deleted then Added
      else if c.ChangeType == Modified then Modified
      else "" }

/-- `RevertChanges` (compare.go lines 148-169). -/
def RevertChanges (changes : List Change) : List Change :=
  changes.map revertOne

/-- `merged[change.Field] = change` on the field-keyed map of
`MergeChanges`: replace the entry for the key in place, or add a new
one. -/
def insertMerged : List Change → Change → List Change
  | [], c => [c]
  | d :: ds, c => if d.Field == c.Field then c :: ds else d :: insertMerged ds c

/-- `MergeChanges` (compare.go lines 181-195): fold every list, in
argument order, into one field-keyed map, later entries replacing
earlier ones, then materialise.  Go materialises by map iteration,
whose order is unspecified; the model materialises in first-insertion
key order, one admissible order, and the merge theorem below is
independent of the materialisation order. -/
def MergeChanges (changeLists : List (List Change)) : List Change :=
  changeLists.flatten.foldl insertMerged []

mutual

/-- `fmt.Sprintf("%v", x)` on the modelled payloads: strings print raw,
ints in decimal, bools as `true`/`false`, the nil interface and nil
pointers as `<nil>`, slices as bracketed space-separated elements.
Float payloads are integral and below the `%g` exponent threshold, so
they print as the integer.  A non-nil pointer prints its runtime
address, which has no counterpart in the model; it is rendered as an
opaque placeholder, and no theorem below depends on that case. -/
def formatValue : Value → String
  | .vString s => s
  | .vInt n => toString n
  | .vBool b => if b then "true" else "false"
  | .vFloat m => toString m
  | .vNil => "<nil>"
  | .vPtr _ none => "<nil>"
  | .vPtr _ (some _) => "<addr>"
  | .vSlice _ none => "[]"
  | .vSlice _ (some vs) => "[" ++ formatValueList vs ++ "]"

def formatValueList : List Value → String
  | [] => ""
  | [v] => formatValue v
  | v :: vs => formatValue v ++ " " ++ formatValueList vs

end

/-- The switch body of `FormatChanges` (compare.go lines 201-211): the
line contributed by one change, newline-terminated; a change with an
unrecognised tag matches no case and contributes nothing. -/
def formatChangeLine (c : Change) : String :=
  if c.ChangeType == Modified then
    "Modified " ++ c.Field ++ ": " ++ formatValue c.OldValue ++ " → " ++
      formatValue c.NewValue ++ "\n"
  else if c.ChangeType == Added then
    "Added " ++ c.Field ++ ": " ++ formatValue c.NewValue ++ "\n"
  else if c.ChangeType == Deleted then
    "Deleted " ++ c.Field ++ " (was " ++ formatValue c.OldValue ++ ")\n"
  else ""

/-- `FormatChanges` (compare.go lines 198-213): `result += line` over
the changes in input order, starting from the empty string. -/
def FormatChanges (changes : List Change) : String :=
  changes.foldl (fun result c => result ++ formatChangeLine c) ""

/-- A parsed JSON document, the image of `encoding/json` texts:
numbers appear only at integral values in this development and are
carried exactly. -/
inductive JsonV where
  | jNull : JsonV
  | jBool (b : Bool) : JsonV
  | jNum (n : Int) : JsonV
  | jStr (s : String) : JsonV
  | jArr (items : List JsonV) : JsonV
  | jObj (entries : List (String × JsonV)) : JsonV
deriving Repr

mutual

/-- `json.Marshal` on an `interface{}` payload of the modelled
universe: pointers marshal their pointee (nil pointers, nil slices and
the nil interface marshal to `null`), slices elementwise, primitives
to the matching JSON scalars.  Marshalling never fails on this
universe. -/
def encodeValue : Value → JsonV
  | .vString s => .jStr s
  | .vInt n => .jNum n
  | .vBool b => .jBool b
  | .vFloat m => .jNum m
  | .vNil => .jNull
  | .vPtr _ none => .jNull
  | .vPtr _ (some v) => encodeValue v
  | .vSlice _ none => .jNull
  | .vSlice _ (some vs) => .jArr (encodeValueList vs)

def encodeValueList : List Value → List JsonV
  | [] => []
  | v :: vs => encodeValue v :: encodeValueList vs

end

mutual

/-- `json.Unmarshal` into an `interface{}` target: `null` to the nil
interface, booleans to `bool`, numbers to `float64`, strings to
`string`, arrays to `[]interface{}`.  A JSON object decodes to
`map[string]interface{}`, which lies outside the modelled universe;
that case never arises from `encodeValue` output and is mapped to the
nil interface here. -/
def decodeAny : JsonV → Value
  | .jNull => .vNil
  | .jBool b => .vBool b
  | .jNum n => .vFloat n
  | .jStr s => .vString s
  | .jArr items => .vSlice .tIface (some (decodeAnyList items))
  | .jObj _ => .vNil

def decodeAnyList : List JsonV → List Value
  | [] => []
  | j :: js => decodeAny j :: decodeAnyList js

end

/-- Key lookup in a decoded JSON object (`encoding/json` matches struct
field names; the exact-match case suffices for documents produced by
`ChangesToJSON`). -/
def jsonLookup : List (String × JsonV) → String → Option JsonV
  | [], _ => none
  | (k, v) :: es, key => if k == key then some v else jsonLookup es key

/-- Unmarshalling a JSON value into a `string`-kinded struct field: an
absent key or `null` leaves the zero value, a string decodes, anything
else is an `UnmarshalTypeError`. -/
def decodeStringField : Option JsonV → Except String String
  | none => .ok ""
  | some .jNull => .ok ""
  | some (.jStr s) => .ok s
  | some _ => .error "json: cannot unmarshal value into field of type string"

/-- `json.Unmarshal` of one array element into a `Change`: the element
must be an object; `Field` and `ChangeType` decode as strings,
`OldValue` and `NewValue` into `interface{}`. -/
def decodeChange (j : JsonV) : Except String Change :=
  match j with
  | .jObj entries => do
    let fld ← decodeStringField (jsonLookup entries "Field")
    let ct ← decodeStringField (jsonLookup entries "ChangeType")
    let ov := (jsonLookup entries "OldValue").elim Value.vNil decodeAny
    let nv := (jsonLookup entries "NewValue").elim Value.vNil decodeAny
    .ok { Field := fld, ChangeType := ct, OldValue := ov, NewValue := nv }
  | _ => .error "json: cannot unmarshal value into Go value of type Change"

/-- Element-by-element decoding of the top-level array; the first
failure aborts with its error. -/
def decodeChangeList : List JsonV → Except String (List Change)
  | [] => .ok []
  | j :: js => do
    let c ← decodeChange j
    let cs ← decodeChangeList js
    .ok (c :: cs)

/-- `ChangesToJSON` (compare.go lines 216-218): `json.Marshal` of the
change slice — an array of four-key objects in struct field order.
The byte serialisation and its reparsing are modelled away as the
identity on documents; marshalling cannot fail on this universe. -/
def ChangesToJSON (changes : List Change) : JsonV :=
  .jArr (changes.map encodeChange)
where
  encodeChange (c : Change) : JsonV :=
    .jObj [("Field", .jStr c.Field), ("ChangeType", .jStr c.ChangeType),
           ("OldValue", encodeValue c.OldValue),
           ("NewValue", encodeValue c.NewValue)]

/-- `ChangesFromJSON` (compare.go lines 221-225): `json.Unmarshal`
into `[]Change`; the document must be an array (or `null`, which
leaves the nil slice). -/
def ChangesFromJSON (data : JsonV) : Except String (List Change) :=
  match data with
  | .jArr items => decodeChangeList items
  | .jNull => .ok []
  | _ => .error "json: cannot unmarshal value into Go value of type []Change"

/-- Pointwise typing of the field values of a struct instance (also
forces the two lists to have equal length). -/
def valsTyped : List FieldDecl → List Value → Bool
  | [], [] => true
  | f :: fs, v :: vs => valHasTy v f.ty && valsTyped fs vs
  | _, _ => false

/-- A well-formed struct instance: distinct field names and one value
of the declared type per field — exactly what the Go runtime guarantees
for any real struct value. -/
def Record.wf (r : Record) : Bool :=
  r.shape.namesNodup && valsTyped r.shape.fields r.vals

/-- Does `applyOne` accept this change (field found, settable, and the
switch neither fails conversion nor panics)?  Whether a change is
accepted depends only on the shape and the change, never on the current
field values. -/
def goodChange (fields : List FieldDecl) (c : Change) : Bool :=
  match findField fields c.Field with
  | none => false
  | some f =>
    f.exported &&
      (match fieldWrite f.ty c with
       | .setTo _ => true
       | .noop => true
       | _ => false)

/-- The value an accepted change writes, if it writes at all (`none`
for a change whose tag matches no switch case, which is skipped). -/
def writeOf (fields : List FieldDecl) (c : Change) : Option Value :=
  match findField fields c.Field with
  | some f =>
    (match fieldWrite f.ty c with
     | .setTo v => some v
     | _ => none)
  | none => none

/-- The pure state evolution of the change loop when every change is
accepted: perform each write in order. -/
def foldWrites (fields : List FieldDecl) (vals : List Value) (cs : List Change) : List Value :=
  cs.foldl
    (fun vs c =>
      match writeOf fields c with
      | some v => setField fields vs c.Field v
      | none => vs)
    vals

/-- Three-list pointwise combination, truncated at the shortest list. -/
def zip3With {α β γ δ : Type} (h : α → β → γ → δ) : List α → List β → List γ → List δ
  | a :: as, b :: bs, c :: cs => h a b c :: zip3With h as bs cs
  | _, _, _ => []

/-- Three-list zip, truncated at the shortest list. -/
def zip3 {α β γ : Type} : List α → List β → List γ → List (α × β × γ) :=
  zip3With (fun a b c => (a, b, c))

/-- A change list generated one field at a time from the old and new
field values — the common shape of the diff output and of its
reversal. -/
def perField (g : FieldDecl → Value → Value → Option Change) :
    List FieldDecl → List Value → List Value → List Change
  | f :: fs, a :: as, b :: bs => (g f a b).toList ++ perField g fs as bs
  | _, _, _ => []

/-- The per-field emission rule of `CompareStructs`: exported and not
deeply equal. -/
def gDiff (f : FieldDecl) (a b : Value) : Option Change :=
  if f.exported && !deepEqual a b then
    some { Field := f.name, ChangeType := classify f.ty a b,
           OldValue := a, NewValue := b }
  else none

/-- The one case in which patching `compare(r, r2)` onto `r` does not
reproduce `r2`'s field value: a slice field classified `Deleted` (old
non-empty, new empty) is set to the zero value — the nil slice — while
`r2` may hold an empty but non-nil slice, which `reflect.DeepEqual`
distinguishes from nil. -/
def isDelExc (ty : Ty) (a b : Value) : Bool :=
  match ty, b with
  | .tSlice _, .vSlice _ (some []) => sliceLen a != 0
  | _, _ => false

/-- The mirror-image exception for the revert round trip: a slice field
classified `Added` (old empty, new non-empty) reverts to `Deleted`,
which zeroes the field to the nil slice, while the original may hold an
empty but non-nil slice. -/
def isAddExc (ty : Ty) (a b : Value) : Bool :=
  match ty, a with
  | .tSlice _, .vSlice _ (some []) => sliceLen b != 0
  | _, _ => false

/-- The field values of `apply(r, compare(r, r2))`: every exported
field takes `r2`'s value, except a slice field hit by `isDelExc`, which
takes the nil slice; every unexported field takes its zero value. -/
def patchedVals (fields : List FieldDecl) (rv r2v : List Value) : List Value :=
  zip3With
    (fun f a b =>
      if f.exported then (if isDelExc f.ty a b then zeroValue f.ty else b)
      else zeroValue f.ty)
    fields rv r2v

/-- The field values of `apply(apply(a, c), revert(c))` for
`c = compare(a, b)`: every exported field takes `a`'s value back,
except a slice field hit by `isAddExc`, which takes the nil slice;
every unexported field takes its zero value. -/
def revertRoundVals (fields : List FieldDecl) (av bv : List Value) : List Value :=
  zip3With
    (fun f a b =>
      if f.exported then (if isAddExc f.ty a b then zeroValue f.ty else a)
      else zeroValue f.ty)
    fields av bv

/-- Blank out the one `Change` component that `ApplyChanges` never
reads. -/
def eraseOld (c : Change) : Change :=
  { c with OldValue := .vNil }

/-- The line format exactly as the specification words it (no
newline): `Modified f: old → new`, `Added f: new`,
`Deleted f (was old)`. -/
def renderLineSpec (c : Change) : String :=
  if c.ChangeType == Modified then
    "Modified " ++ c.Field ++ ": " ++ formatValue c.OldValue ++ " → " ++
      formatValue c.NewValue
  else if c.ChangeType == Added then
    "Added " ++ c.Field ++ ": " ++ formatValue c.NewValue
  else
    "Deleted " ++ c.Field ++ " (was " ++ formatValue c.OldValue ++ ")"

/-- The rendering the specification claims: the lines newline-joined
(no trailing newline). -/
def formatChangesJoinedSpec (changes : List Change) : String :=
  String.intercalate "\n" (changes.map renderLineSpec)

/-- A concrete test shape: three exported fields (string, int, slice of
string) and one unexported field. -/
def personShape : Shape :=
  ⟨"Person",
   [⟨"Name", true, .tString⟩, ⟨"Age", true, .tInt⟩,
    ⟨"Children", true, .tSlice .tString⟩, ⟨"secret", false, .tString⟩]⟩

/-- A concrete record over `personShape`. -/
def rJohn : Record :=
  ⟨personShape,
   [.vString "John", .vInt 30, .vSlice .tString (some [.vString "Alice"]),
    .vString "s3"]⟩

/-- A second record over `personShape`: `Age` modified and `Children`
emptied to an empty-but-non-nil slice. -/
def rJane : Record :=
  ⟨personShape,
   [.vString "John", .vInt 31, .vSlice .tString (some []), .vString "zz"]⟩

/-- A record whose `Children` is the empty but non-nil slice. -/
def rEmptyKids : Record :=
  ⟨personShape,
   [.vString "Ann", .vInt 5, .vSlice .tString (some []), .vString "p"]⟩

/-- `rEmptyKids` with one child added. -/
def rOneKid : Record :=
  ⟨personShape,
   [.vString "Ann", .vInt 5, .vSlice .tString (some [.vString "Kim"]),
    .vString "q"]⟩

theorem deepEqual_refl (a : Value) : deepEqual a a = true :=
  (deepEqual_iff a a).mpr rfl

theorem deepEqual_eq_of {a b : Value} (h : deepEqual a b = true) : a = b :=
  (deepEqual_iff a b).mp h

@[simp] theorem modified_beq_deleted : (Modified == Deleted) = false := by decide

@[simp] theorem added_beq_deleted : (Added == Deleted) = false := by decide

@[simp] theorem deleted_beq_deleted : (Deleted == Deleted) = true := by decide

@[simp] theorem modified_beq_modified : (Modified == Modified) = true := by decide

@[simp] theorem added_beq_modified : (Added == Modified) = false := by decide

@[simp] theorem deleted_beq_modified : (Deleted == Modified) = false := by decide

@[simp] theorem modified_beq_added : (Modified == Added) = false := by decide

@[simp] theorem added_beq_added : (Added == Added) = true := by decide

@[simp] theorem deleted_beq_added : (Deleted == Added) = false := by decide

theorem tyOf_ne_iface {v : Value} {t : Ty} (h : tyOf v = some t) : t ≠ .tIface := by
  cases v <;> simp [tyOf] at h <;> simp [← h]

theorem diffAux_eq_perField :
    ∀ (fs : List FieldDecl) (as bs : List Value),
      diffAux fs as bs = perField gDiff fs as bs
  | f :: fs, a :: as, b :: bs => by
      rw [diffAux, perField, diffAux_eq_perField fs as bs, gDiff]
      by_cases h : f.exported && !deepEqual a b <;> simp [h]
  | [], as, bs => by cases as <;> cases bs <;> rfl
  | _ :: _, [], bs => by cases bs <;> rfl
  | _ :: _, _ :: _, [] => rfl

@[simp] theorem zip3_nil_left {α β γ : Type} (bs : List β) (cs : List γ) :
    zip3 ([] : List α) bs cs = [] := by
  cases bs <;> cases cs <;> rfl

@[simp] theorem zip3_cons {α β γ : Type} (a : α) (as : List α) (b : β)
    (bs : List β) (c : γ) (cs : List γ) :
    zip3 (a :: as) (b :: bs) (c :: cs) = (a, b, c) :: zip3 as bs cs := rfl

theorem findField_cons_self (f : FieldDecl) (fs : List FieldDecl) :
    findField (f :: fs) f.name = some f := by
  simp [findField]

theorem findField_cons_ne {f : FieldDecl} {n : String} (fs : List FieldDecl)
    (h : n ≠ f.name) : findField (f :: fs) n = findField fs n := by
  have h2 : f.name ≠ n := Ne.symm h
  simp [findField, h2]

theorem findField_mem_nodup :
    ∀ {fs : List FieldDecl} {f : FieldDecl},
      (fs.map FieldDecl.name).Nodup → f ∈ fs → findField fs f.name = some f := by
  intro fs
  induction fs with
  | nil => intro f _ hf; cases hf
  | cons g gs ih =>
    intro f hnd hf
    rcases List.mem_cons.mp hf with rfl | hf2
    · exact findField_cons_self f gs
    · have hgn : g.name ∉ gs.map FieldDecl.name := (List.nodup_cons.mp hnd).1
      have : f.name ≠ g.name := by
        intro he
        exact hgn (he ▸ List.mem_map_of_mem FieldDecl.name hf2)
      rw [findField_cons_ne gs this]
      exact ih (List.nodup_cons.mp hnd).2 hf2

theorem setField_cons_self (f : FieldDecl) (fs : List FieldDecl) (v : Value)
    (vs : List Value) (x : Value) :
    setField (f :: fs) (v :: vs) f.name x = x :: vs := by
  simp [setField]

theorem setField_cons_ne {f : FieldDecl} {n : String} (fs : List FieldDecl)
    (v : Value) (vs : List Value) (x : Value) (h : n ≠ f.name) :
    setField (f :: fs) (v :: vs) n x = v :: setField fs vs n x := by
  have h2 : f.name ≠ n := Ne.symm h
  simp [setField, h2]

theorem writeOf_cons_ne {f : FieldDecl} {c : Change} (fs : List FieldDecl)
    (h : c.Field ≠ f.name) : writeOf (f :: fs) c = writeOf fs c := by
  rw [writeOf, writeOf, findField_cons_ne fs h]

theorem goodChange_cons_ne {f : FieldDecl} {c : Change} (fs : List FieldDecl)
    (h : c.Field ≠ f.name) : goodChange (f :: fs) c = goodChange fs c := by
  rw [goodChange, goodChange, findField_cons_ne fs h]

theorem foldWrites_append (fields : List FieldDecl) (vals : List Value)
    (cs1 cs2 : List Change) :
    foldWrites fields vals (cs1 ++ cs2)
      = foldWrites fields (foldWrites fields vals cs1) cs2 := by
  simp [foldWrites, List.foldl_append]

theorem foldWrites_cons (fields : List FieldDecl) (vals : List Value)
    (c : Change) (cs : List Change) :
    foldWrites fields vals (c :: cs)
      = foldWrites fields
          (match writeOf fields c with
           | some x => setField fields vals c.Field x
           | none => vals) cs := rfl

theorem foldWrites_skip :
    ∀ (cs : List Change) (f : FieldDecl) (fs : List FieldDecl) (v : Value)
      (vs : List Value),
      (∀ c ∈ cs, c.Field ≠ f.name) →
      foldWrites (f :: fs) (v :: vs) cs = v :: foldWrites fs vs cs
  | [], _, _, _, _, _ => rfl
  | c :: cs, f, fs, v, vs, h => by
    have hc : c.Field ≠ f.name := h c (List.mem_cons_self c cs)
    have ht : ∀ d ∈ cs, d.Field ≠ f.name := fun d hd =>
      h d (List.mem_cons_of_mem c hd)
    rw [foldWrites_cons, foldWrites_cons, writeOf_cons_ne fs hc]
    cases hw : writeOf fs c with
    | none =>
      exact foldWrites_skip cs f fs v vs ht
    | some x =>
      show foldWrites (f :: fs) (setField (f :: fs) (v :: vs) c.Field x) cs
        = v :: foldWrites fs (setField fs vs c.Field x) cs
      rw [setField_cons_ne fs v vs x hc]
      exact foldWrites_skip cs f fs v (setField fs vs c.Field x) ht

theorem perField_mem :
    ∀ (g : FieldDecl → Value → Value → Option Change) (fs : List FieldDecl)
      (as bs : List Value) (c : Change),
      c ∈ perField g fs as bs →
      ∃ f a b, (f, a, b) ∈ zip3 fs as bs ∧ g f a b = some c
  | g, f :: fs, a :: as, b :: bs, c, h => by
    rw [perField] at h
    rcases List.mem_append.mp h with h1 | h2
    · cases hg : g f a b with
      | none => rw [hg] at h1; cases h1
      | some d =>
        rw [hg] at h1
        have hcd : c = d := by simpa using h1
        exact ⟨f, a, b, by simp, by rw [hg, hcd]⟩
    · obtain ⟨f2, a2, b2, hmem, hg⟩ := perField_mem g fs as bs c h2
      exact ⟨f2, a2, b2, by simp [hmem], hg⟩
  | _, [], as, bs, c, h => by cases as <;> cases bs <;> cases h
  | _, _ :: _, [], bs, c, h => by cases bs <;> cases h
  | _, _ :: _, _ :: _, [], c, h => by cases h

theorem zip3_typed (fs : List FieldDecl) :
    ∀ (as bs : List Value) (f : FieldDecl) (a b : Value),
      valsTyped fs as = true → valsTyped fs bs = true →
      (f, a, b) ∈ zip3 fs as bs →
      valHasTy a f.ty = true ∧ valHasTy b f.ty = true := by
  induction fs with
  | nil => intro as bs f a b _ _ hmem; rw [zip3_nil_left] at hmem; cases hmem
  | cons f0 fs ih =>
    intro as bs f a b ha hb hmem
    cases as with
    | nil => simp [valsTyped] at ha
    | cons a0 as =>
      cases bs with
      | nil => simp [valsTyped] at hb
      | cons b0 bs =>
        simp only [valsTyped, Bool.and_eq_true] at ha hb
        rw [zip3_cons] at hmem
        rcases List.mem_cons.mp hmem with he | ht
        · cases he; exact ⟨ha.1, hb.1⟩
        · exact ih as bs f a b ha.2 hb.2 ht

theorem applyOne_good {fields : List FieldDecl} {c : Change} (vals : List Value)
    (h : goodChange fields c = true) :
    applyOne fields vals c
      = .ok (match writeOf fields c with
             | some x => setField fields vals c.Field x
             | none => vals) := by
  rw [goodChange] at h
  simp only [applyOne, writeOf]
  cases hf : findField fields c.Field with
  | none => rw [hf] at h; exact absurd h (by simp)
  | some f =>
    rw [hf] at h
    simp only [Bool.and_eq_true] at h
    cases hw : fieldWrite f.ty c with
    | setTo v => simp [h.1, hw]
    | noop => simp [h.1, hw]
    | convErr => rw [hw] at h; simp at h
    | typePanic => rw [hw] at h; simp at h

theorem applyAll_eq_foldWrites :
    ∀ (cs : List Change) (fields : List FieldDecl) (vals : List Value),
      (∀ c ∈ cs, goodChange fields c = true) →
      applyAll fields vals cs = .ok (foldWrites fields vals cs)
  | [], _, _, _ => rfl
  | c :: cs, fields, vals, h => by
    have hc := h c (List.mem_cons_self c cs)
    have ht := fun d hd => h d (List.mem_cons_of_mem c hd)
    rw [foldWrites_cons, applyAll, applyOne_good vals hc]
    exact applyAll_eq_foldWrites cs fields _ ht

theorem applyOne_ok_good {fields : List FieldDecl} {c : Change}
    {vals vals2 : List Value} (h : applyOne fields vals c = .ok vals2) :
    goodChange fields c = true := by
  rw [applyOne] at h
  rw [goodChange]
  cases hf : findField fields c.Field with
  | none => rw [hf] at h; cases h
  | some f =>
    rw [hf] at h
    have h2 : (if (!f.exported) = true then
        StepRes.err ("field " ++ c.Field ++ " is not settable")
      else
        match fieldWrite f.ty c with
        | .setTo v => StepRes.ok (setField fields vals c.Field v)
        | .noop => StepRes.ok vals
        | .convErr => StepRes.err ("cannot convert value for field " ++ c.Field)
        | .typePanic =>
            StepRes.panicked "reflect: call of reflect.Value.Type on zero Value")
        = StepRes.ok vals2 := h
    show (f.exported &&
      (match fieldWrite f.ty c with
       | .setTo _ => true
       | .noop => true
       | _ => false)) = true
    by_cases he : f.exported = true
    · simp only [he, Bool.true_and]
      have h3 : (match fieldWrite f.ty c with
        | FieldWrite.setTo v => StepRes.ok (setField fields vals c.Field v)
        | FieldWrite.noop => StepRes.ok vals
        | FieldWrite.convErr =>
            StepRes.err ("cannot convert value for field " ++ c.Field)
        | FieldWrite.typePanic =>
            StepRes.panicked "reflect: call of reflect.Value.Type on zero Value")
          = StepRes.ok vals2 := by simpa [he] using h2
      have hcase : (∃ v, fieldWrite f.ty c = .setTo v) ∨ fieldWrite f.ty c = .noop := by
        cases hw : fieldWrite f.ty c
        · exact Or.inl ⟨_, rfl⟩
        · exact Or.inr rfl
        · rw [hw] at h3; exact StepRes.noConfusion h3
        · rw [hw] at h3; exact StepRes.noConfusion h3
      rcases hcase with ⟨v, hw⟩ | hw <;> rw [hw]
    · have he2 : f.exported = false := by revert he; cases f.exported <;> simp
      rw [he2] at h2
      simp at h2

theorem applyAll_ok_good :
    ∀ (cs : List Change) (fields : List FieldDecl) (vals vs2 : List Value),
      applyAll fields vals cs = .ok vs2 → ∀ c ∈ cs, goodChange fields c = true
  | [], _, _, _, _, c, hc => by cases hc
  | c :: cs, fields, vals, vs2, h, d, hd => by
    rw [applyAll] at h
    cases ho : applyOne fields vals c with
    | ok w =>
      rw [ho] at h
      rcases List.mem_cons.mp hd with rfl | hd2
      · exact applyOne_ok_good ho
      · exact applyAll_ok_good cs fields w vs2 h d hd2
    | err m => rw [ho] at h; cases h
    | panicked m => rw [ho] at h; cases h

@[simp] theorem modified_ne_deleted : ¬(Modified = Deleted) := by decide

@[simp] theorem added_ne_deleted : ¬(Added = Deleted) := by decide

@[simp] theorem modified_ne_added : ¬(Modified = Added) := by decide

@[simp] theorem deleted_ne_added : ¬(Deleted = Added) := by decide

@[simp] theorem deleted_ne_modified : ¬(Deleted = Modified) := by decide

@[simp] theorem added_ne_modified : ¬(Added = Modified) := by decide

@[simp] theorem vString_beq_vNil (s : String) :
    (Value.vString s == Value.vNil) = false := beq_eq_false_iff_ne.mpr (by simp)

@[simp] theorem vInt_beq_vNil (n : Int) :
    (Value.vInt n == Value.vNil) = false := beq_eq_false_iff_ne.mpr (by simp)

@[simp] theorem vBool_beq_vNil (b : Bool) :
    (Value.vBool b == Value.vNil) = false := beq_eq_false_iff_ne.mpr (by simp)

@[simp] theorem vFloat_beq_vNil (m : Int) :
    (Value.vFloat m == Value.vNil) = false := beq_eq_false_iff_ne.mpr (by simp)

@[simp] theorem vPtr_beq_vNil (e : Ty) (p : Option Value) :
    (Value.vPtr e p == Value.vNil) = false := beq_eq_false_iff_ne.mpr (by simp)

@[simp] theorem vSlice_beq_vNil (e : Ty) (vs : Option (List Value)) :
    (Value.vSlice e vs == Value.vNil) = false := beq_eq_false_iff_ne.mpr (by simp)

@[simp] theorem vNil_beq_vNil : (Value.vNil == Value.vNil) = true :=
  beq_self_eq_true Value.vNil

theorem valHasTy_string {a : Value} (h : valHasTy a .tString = true) :
    ∃ s, a = .vString s := by
  cases a <;> first | exact ⟨_, rfl⟩ | simp [valHasTy, tyOf] at h

theorem valHasTy_int {a : Value} (h : valHasTy a .tInt = true) :
    ∃ n, a = .vInt n := by
  cases a <;> first | exact ⟨_, rfl⟩ | simp [valHasTy, tyOf] at h

theorem valHasTy_bool {a : Value} (h : valHasTy a .tBool = true) :
    ∃ b, a = .vBool b := by
  cases a <;> first | exact ⟨_, rfl⟩ | simp [valHasTy, tyOf] at h

theorem valHasTy_float {a : Value} (h : valHasTy a .tFloat = true) :
    ∃ m, a = .vFloat m := by
  cases a <;> first | exact ⟨_, rfl⟩ | simp [valHasTy, tyOf] at h

theorem valHasTy_ptr {a : Value} {e : Ty} (h : valHasTy a (.tPtr e) = true) :
    ∃ p : Option Value, a = .vPtr e p := by
  cases a with
  | vPtr e2 p =>
    have he : e2 = e := by simpa [valHasTy, tyOf] using h
    exact ⟨p, by rw [he]⟩
  | vString s => simp [valHasTy, tyOf] at h
  | vInt n => simp [valHasTy, tyOf] at h
  | vBool b => simp [valHasTy, tyOf] at h
  | vFloat m => simp [valHasTy, tyOf] at h
  | vNil => simp [valHasTy, tyOf] at h
  | vSlice e2 vs => simp [valHasTy, tyOf] at h

theorem valHasTy_slice {a : Value} {e : Ty} (h : valHasTy a (.tSlice e) = true) :
    ∃ vs : Option (List Value), a = .vSlice e vs := by
  cases a with
  | vSlice e2 vs =>
    have he : e2 = e := by simpa [valHasTy, tyOf] using h
    exact ⟨vs, by rw [he]⟩
  | vString s => simp [valHasTy, tyOf] at h
  | vInt n => simp [valHasTy, tyOf] at h
  | vBool b => simp [valHasTy, tyOf] at h
  | vFloat m => simp [valHasTy, tyOf] at h
  | vNil => simp [valHasTy, tyOf] at h
  | vPtr e2 p => simp [valHasTy, tyOf] at h

theorem fieldWrite_deleted (ty : Ty) (nm : String) (a b : Value) :
    fieldWrite ty { Field := nm, ChangeType := Deleted, OldValue := a, NewValue := b }
      = .setTo (zeroValue ty) := by
  simp [fieldWrite]

@[simp] theorem sliceLen_some (e : Ty) (vs : List Value) :
    sliceLen (.vSlice e (some vs)) = vs.length := rfl

@[simp] theorem sliceLen_none (e : Ty) : sliceLen (.vSlice e none) = 0 := rfl

@[simp] theorem ptrIsNil_none (e : Ty) : ptrIsNil (.vPtr e none) = true := rfl

@[simp] theorem ptrIsNil_some (e : Ty) (v : Value) :
    ptrIsNil (.vPtr e (some v)) = false := rfl

theorem ConvertibleTo_iface (src : Ty) : ConvertibleTo src .tIface = true := by
  cases src <;> rfl

theorem convertVal_iface (v : Value) : convertVal v .tIface = v := by
  cases v <;> rfl

theorem tyOf_some_of_ne_nil {b : Value} (h : b ≠ .vNil) :
    ∃ src, tyOf b = some src := by
  cases b <;> first | exact absurd rfl h | exact ⟨_, rfl⟩

theorem fieldWrite_diff (ty : Ty) (nm : String) (a b : Value)
    (ha : valHasTy a ty = true) (hb : valHasTy b ty = true)
    (hne : deepEqual a b = false) :
    fieldWrite ty { Field := nm, ChangeType := classify ty a b,
                    OldValue := a, NewValue := b }
      = .setTo (if isDelExc ty a b then zeroValue ty else b) := by
  cases ty with
  | tString =>
    obtain ⟨sa, rfl⟩ := valHasTy_string ha
    obtain ⟨sb, rfl⟩ := valHasTy_string hb
    by_cases hd : (sa != "" && sb == "") = true
    · have hsb : sb = "" := by
        simp only [Bool.and_eq_true, beq_iff_eq] at hd
        exact hd.2
      have hct : classify .tString (.vString sa) (.vString sb) = Deleted := by
        simp [classify, stringVal, hd]
      rw [hct, fieldWrite_deleted]
      simp [isDelExc, zeroValue, hsb]
    · by_cases hadd : (sa == "" && sb != "") = true
      · have hct : classify .tString (.vString sa) (.vString sb) = Added := by
          simp [classify, stringVal, hd, hadd]
        rw [hct]
        simp [fieldWrite, tyOf, isDelExc]
      · have hct : classify .tString (.vString sa) (.vString sb) = Modified := by
          simp [classify, stringVal, hd, hadd]
        rw [hct]
        simp [fieldWrite, tyOf, isDelExc]
  | tInt =>
    obtain ⟨na, rfl⟩ := valHasTy_int ha
    obtain ⟨nb, rfl⟩ := valHasTy_int hb
    have hct : classify .tInt (.vInt na) (.vInt nb) = Modified := by
      simp [classify]
    rw [hct]
    simp [fieldWrite, tyOf, isDelExc]
  | tBool =>
    obtain ⟨ba, rfl⟩ := valHasTy_bool ha
    obtain ⟨bb, rfl⟩ := valHasTy_bool hb
    have hct : classify .tBool (.vBool ba) (.vBool bb) = Modified := by
      simp [classify]
    rw [hct]
    simp [fieldWrite, tyOf, isDelExc]
  | tFloat =>
    obtain ⟨ma, rfl⟩ := valHasTy_float ha
    obtain ⟨mb, rfl⟩ := valHasTy_float hb
    have hct : classify .tFloat (.vFloat ma) (.vFloat mb) = Modified := by
      simp [classify]
    rw [hct]
    simp [fieldWrite, tyOf, isDelExc]
  | tPtr e =>
    obtain ⟨pa, rfl⟩ := valHasTy_ptr ha
    obtain ⟨pb, rfl⟩ := valHasTy_ptr hb
    by_cases hd : (!ptrIsNil (.vPtr e pa) && ptrIsNil (.vPtr e pb)) = true
    · have hpb : pb = none := by
        cases pb with
        | none => rfl
        | some x => simp at hd
      subst hpb
      have hct : classify (.tPtr e) (.vPtr e pa) (.vPtr e none) = Deleted := by
        simp only [classify]
        rw [if_pos hd]
      rw [hct, fieldWrite_deleted]
      simp [isDelExc, zeroValue]
    · by_cases hadd : (ptrIsNil (.vPtr e pa) && !ptrIsNil (.vPtr e pb)) = true
      · have hct : classify (.tPtr e) (.vPtr e pa) (.vPtr e pb) = Added := by
          simp [classify, hd, hadd]
        rw [hct]
        simp [fieldWrite, tyOf, isDelExc]
      · have hct : classify (.tPtr e) (.vPtr e pa) (.vPtr e pb) = Modified := by
          simp [classify, hd, hadd]
        rw [hct]
        simp [fieldWrite, tyOf, isDelExc]
  | tIface =>
    by_cases hbnil : b = Value.vNil
    · subst hbnil
      have hanil : ¬(a = Value.vNil) := by
        intro h
        rw [h, deepEqual_refl] at hne
        cases hne
      have ha2 : (a == Value.vNil) = false := beq_eq_false_iff_ne.mpr hanil
      have hct : classify .tIface a .vNil = Deleted := by
        simp [classify, ifaceIsNil, ha2]
      rw [hct, fieldWrite_deleted]
      simp [isDelExc, zeroValue]
    · have hb2 : (b == Value.vNil) = false := beq_eq_false_iff_ne.mpr hbnil
      obtain ⟨src, hsrc⟩ := tyOf_some_of_ne_nil hbnil
      have hsrc2 : (src == Ty.tIface) = false :=
        beq_eq_false_iff_ne.mpr (tyOf_ne_iface hsrc)
      by_cases hanil : (a == Value.vNil) = true
      · have hct : classify .tIface a b = Added := by
          simp [classify, ifaceIsNil, hb2, hanil]
        rw [hct]
        simp [fieldWrite, hb2, hsrc, hsrc2, ConvertibleTo_iface, convertVal_iface,
          isDelExc]
      · have ha2 : (a == Value.vNil) = false := by
          revert hanil
          cases a == Value.vNil <;> simp
        have hct : classify .tIface a b = Modified := by
          simp [classify, ifaceIsNil, hb2, ha2]
        rw [hct]
        simp [fieldWrite, hb2, hsrc, hsrc2, ConvertibleTo_iface, convertVal_iface,
          isDelExc]
  | tSlice e =>
    obtain ⟨la, rfl⟩ := valHasTy_slice ha
    obtain ⟨lb, rfl⟩ := valHasTy_slice hb
    by_cases hd : (sliceLen (.vSlice e la) > 0 && sliceLen (.vSlice e lb) == 0) = true
    · have hct : classify (.tSlice e) (.vSlice e la) (.vSlice e lb) = Deleted := by
        simp only [classify]
        rw [if_pos hd]
      rw [hct, fieldWrite_deleted]
      cases lb with
      | none => simp [isDelExc, zeroValue]
      | some l =>
        cases l with
        | nil =>
          have hla : (sliceLen (Value.vSlice e la) != 0) = true := by
            cases la with
            | none => simp at hd
            | some l2 =>
              cases l2 with
              | nil => simp at hd
              | cons y ys => simp
          simp [isDelExc, zeroValue, hla]
        | cons x xs => simp at hd
    · have hct : classify (.tSlice e) (.vSlice e la) (.vSlice e lb) = Added ∨
          classify (.tSlice e) (.vSlice e la) (.vSlice e lb) = Modified := by
        simp only [classify]
        rw [if_neg hd]
        by_cases hadd : (sliceLen (.vSlice e la) == 0 && sliceLen (.vSlice e lb) > 0) = true
        · rw [if_pos hadd]; exact Or.inl rfl
        · rw [if_neg hadd]; exact Or.inr rfl
      have hexc : isDelExc (.tSlice e) (.vSlice e la) (.vSlice e lb) = false := by
        cases lb with
        | none => rfl
        | some l =>
          cases l with
          | nil =>
            have hla : sliceLen (Value.vSlice e la) = 0 := by
              cases la with
              | none => rfl
              | some l2 =>
                cases l2 with
                | nil => rfl
                | cons y ys => exact absurd (by simp) hd
            simp [isDelExc, hla]
          | cons x xs => rfl
      rcases hct with hct | hct <;> rw [hct] <;>
        simp [fieldWrite, tyOf, hexc]

theorem revertOne_modified (nm : String) (a b : Value) :
    revertOne { Field := nm, ChangeType := Modified, OldValue := a, NewValue := b }
      = { Field := nm, ChangeType := Modified, OldValue := b, NewValue := a } := by
  simp [revertOne]

theorem revertOne_added (nm : String) (a b : Value) :
    revertOne { Field := nm, ChangeType := Added, OldValue := a, NewValue := b }
      = { Field := nm, ChangeType := Deleted, OldValue := b, NewValue := a } := by
  simp [revertOne]

theorem revertOne_deleted (nm : String) (a b : Value) :
    revertOne { Field := nm, ChangeType := Deleted, OldValue := a, NewValue := b }
      = { Field := nm, ChangeType := Added, OldValue := b, NewValue := a } := by
  simp [revertOne]

theorem fieldWrite_revertDiff (ty : Ty) (nm : String) (a b : Value)
    (ha : valHasTy a ty = true) (hb : valHasTy b ty = true)
    (hne : deepEqual a b = false) :
    fieldWrite ty (revertOne { Field := nm, ChangeType := classify ty a b,
                               OldValue := a, NewValue := b })
      = .setTo (if isAddExc ty a b then zeroValue ty else a) := by
  cases ty with
  | tString =>
    obtain ⟨sa, rfl⟩ := valHasTy_string ha
    obtain ⟨sb, rfl⟩ := valHasTy_string hb
    by_cases hd : (sa != "" && sb == "") = true
    · have hct : classify .tString (.vString sa) (.vString sb) = Deleted := by
        simp [classify, stringVal, hd]
      rw [hct, revertOne_deleted]
      simp [fieldWrite, tyOf, isAddExc]
    · by_cases hadd : (sa == "" && sb != "") = true
      · have hsa : sa = "" := by
          simp only [Bool.and_eq_true, beq_iff_eq] at hadd
          exact hadd.1
        have hct : classify .tString (.vString sa) (.vString sb) = Added := by
          simp [classify, stringVal, hd, hadd]
        rw [hct, revertOne_added, fieldWrite_deleted]
        simp [isAddExc, zeroValue, hsa]
      · have hct : classify .tString (.vString sa) (.vString sb) = Modified := by
          simp [classify, stringVal, hd, hadd]
        rw [hct, revertOne_modified]
        simp [fieldWrite, tyOf, isAddExc]
  | tInt =>
    obtain ⟨na, rfl⟩ := valHasTy_int ha
    obtain ⟨nb, rfl⟩ := valHasTy_int hb
    have hct : classify .tInt (.vInt na) (.vInt nb) = Modified := by
      simp [classify]
    rw [hct, revertOne_modified]
    simp [fieldWrite, tyOf, isAddExc]
  | tBool =>
    obtain ⟨ba, rfl⟩ := valHasTy_bool ha
    obtain ⟨bb, rfl⟩ := valHasTy_bool hb
    have hct : classify .tBool (.vBool ba) (.vBool bb) = Modified := by
      simp [classify]
    rw [hct, revertOne_modified]
    simp [fieldWrite, tyOf, isAddExc]
  | tFloat =>
    obtain ⟨ma, rfl⟩ := valHasTy_float ha
    obtain ⟨mb, rfl⟩ := valHasTy_float hb
    have hct : classify .tFloat (.vFloat ma) (.vFloat mb) = Modified := by
      simp [classify]
    rw [hct, revertOne_modified]
    simp [fieldWrite, tyOf, isAddExc]
  | tPtr e =>
    obtain ⟨pa, rfl⟩ := valHasTy_ptr ha
    obtain ⟨pb, rfl⟩ := valHasTy_ptr hb
    by_cases hd : (!ptrIsNil (.vPtr e pa) && ptrIsNil (.vPtr e pb)) = true
    · have hct : classify (.tPtr e) (.vPtr e pa) (.vPtr e pb) = Deleted := by
        simp only [classify]
        rw [if_pos hd]
      rw [hct, revertOne_deleted]
      simp [fieldWrite, tyOf, isAddExc]
    · by_cases hadd : (ptrIsNil (.vPtr e pa) && !ptrIsNil (.vPtr e pb)) = true
      · have hpa : pa = none := by
          cases pa with
          | none => rfl
          | some x => simp at hadd
        subst hpa
        have hct : classify (.tPtr e) (.vPtr e none) (.vPtr e pb) = Added := by
          simp only [classify]
          rw [if_neg hd, if_pos hadd]
        rw [hct, revertOne_added, fieldWrite_deleted]
        simp [isAddExc, zeroValue]
      · have hct : classify (.tPtr e) (.vPtr e pa) (.vPtr e pb) = Modified := by
          simp only [classify]
          rw [if_neg hd, if_neg hadd]
        rw [hct, revertOne_modified]
        simp [fieldWrite, tyOf, isAddExc]
  | tIface =>
    by_cases hbnil : b = Value.vNil
    · subst hbnil
      have hanil : ¬(a = Value.vNil) := by
        intro h
        rw [h, deepEqual_refl] at hne
        cases hne
      have ha2 : (a == Value.vNil) = false := beq_eq_false_iff_ne.mpr hanil
      obtain ⟨src, hsrc⟩ := tyOf_some_of_ne_nil hanil
      have hsrc2 : (src == Ty.tIface) = false :=
        beq_eq_false_iff_ne.mpr (tyOf_ne_iface hsrc)
      have hct : classify .tIface a .vNil = Deleted := by
        simp [classify, ifaceIsNil, ha2]
      rw [hct, revertOne_deleted]
      simp [fieldWrite, ha2, hsrc, hsrc2, ConvertibleTo_iface, convertVal_iface,
        isAddExc]
    · have hb2 : (b == Value.vNil) = false := beq_eq_false_iff_ne.mpr hbnil
      by_cases hanil : (a == Value.vNil) = true
      · have ha3 : a = Value.vNil := by
          have := beq_iff_eq.mp hanil
          exact this
        subst ha3
        have hct : classify .tIface .vNil b = Added := by
          simp [classify, ifaceIsNil, hb2]
        rw [hct, revertOne_added, fieldWrite_deleted]
        simp [isAddExc, zeroValue]
      · have ha2 : (a == Value.vNil) = false := by
          revert hanil
          cases a == Value.vNil <;> simp
        have hanil2 : ¬(a = Value.vNil) := beq_eq_false_iff_ne.mp ha2
        obtain ⟨src, hsrc⟩ := tyOf_some_of_ne_nil hanil2
        have hsrc2 : (src == Ty.tIface) = false :=
          beq_eq_false_iff_ne.mpr (tyOf_ne_iface hsrc)
        have hct : classify .tIface a b = Modified := by
          simp [classify, ifaceIsNil, hb2, ha2]
        rw [hct, revertOne_modified]
        simp [fieldWrite, ha2, hsrc, hsrc2, ConvertibleTo_iface, convertVal_iface,
          isAddExc]
  | tSlice e =>
    obtain ⟨la, rfl⟩ := valHasTy_slice ha
    obtain ⟨lb, rfl⟩ := valHasTy_slice hb
    by_cases hd : (sliceLen (.vSlice e la) > 0 && sliceLen (.vSlice e lb) == 0) = true
    · have hct : classify (.tSlice e) (.vSlice e la) (.vSlice e lb) = Deleted := by
        simp only [classify]
        rw [if_pos hd]
      rw [hct, revertOne_deleted]
      have hexc : isAddExc (.tSlice e) (.vSlice e la) (.vSlice e lb) = false := by
        cases la with
        | none => simp at hd
        | some l =>
          cases l with
          | nil => simp at hd
          | cons y ys => rfl
      simp [fieldWrite, tyOf, hexc]
    · by_cases hadd : (sliceLen (.vSlice e la) == 0 && sliceLen (.vSlice e lb) > 0) = true
      · have hct : classify (.tSlice e) (.vSlice e la) (.vSlice e lb) = Added := by
          simp only [classify]
          rw [if_neg hd, if_pos hadd]
        rw [hct, revertOne_added, fieldWrite_deleted]
        cases la with
        | none => simp [isAddExc, zeroValue]
        | some l =>
          cases l with
          | nil =>
            have hlb : (sliceLen (Value.vSlice e lb) != 0) = true := by
              cases lb with
              | none => simp at hadd
              | some l2 =>
                cases l2 with
                | nil => simp at hadd
                | cons y ys => simp
            simp [isAddExc, zeroValue, hlb]
          | cons y ys => simp at hadd
      · have hct : classify (.tSlice e) (.vSlice e la) (.vSlice e lb) = Modified := by
          simp only [classify]
          rw [if_neg hd, if_neg hadd]
        rw [hct, revertOne_modified]
        have hexc : isAddExc (.tSlice e) (.vSlice e la) (.vSlice e lb) = false := by
          cases la with
          | none => rfl
          | some l =>
            cases l with
            | nil =>
              have hlb : sliceLen (Value.vSlice e lb) = 0 := by
                cases lb with
                | none => rfl
                | some l2 =>
                  cases l2 with
                  | nil => rfl
                  | cons y ys => exact absurd (by simp) hadd
              simp [isAddExc, hlb]
            | cons y ys => rfl
        simp [fieldWrite, tyOf, hexc]

@[simp] theorem zip3With_cons {α β γ δ : Type} (h : α → β → γ → δ) (a : α)
    (as : List α) (b : β) (bs : List β) (c : γ) (cs : List γ) :
    zip3With h (a :: as) (b :: bs) (c :: cs) = h a b c :: zip3With h as bs cs := rfl

@[simp] theorem perField_cons (g : FieldDecl → Value → Value → Option Change)
    (f : FieldDecl) (fs : List FieldDecl) (a : Value) (as : List Value)
    (b : Value) (bs : List Value) :
    perField g (f :: fs) (a :: as) (b :: bs)
      = (g f a b).toList ++ perField g fs as bs := rfl

theorem zip3_mem_left {α β γ : Type} :
    ∀ {as : List α} {bs : List β} {cs : List γ} {x : α} {y : β} {z : γ},
      (x, y, z) ∈ zip3 as bs cs → x ∈ as := by
  intro as
  induction as with
  | nil => intro bs cs x y z h; rw [zip3_nil_left] at h; cases h
  | cons a as ih =>
    intro bs cs x y z h
    cases bs with
    | nil => cases h
    | cons b bs =>
      cases cs with
      | nil => cases h
      | cons c cs =>
        rw [zip3_cons] at h
        rcases List.mem_cons.mp h with he | ht
        · cases he; exact List.mem_cons_self a as
        · exact List.mem_cons_of_mem a (ih ht)

theorem perField_names (g : FieldDecl → Value → Value → Option Change)
    (hname : ∀ f a b c, g f a b = some c → c.Field = f.name)
    (fs : List FieldDecl) (as bs : List Value) (c : Change)
    (h : c ∈ perField g fs as bs) : c.Field ∈ fs.map FieldDecl.name := by
  obtain ⟨f, a, b, hmem, hg⟩ := perField_mem g fs as bs c h
  rw [hname f a b c hg]
  exact List.mem_map_of_mem _ (zip3_mem_left hmem)

theorem perField_good (g : FieldDecl → Value → Value → Option Change)
    (fields : List FieldDecl) (as bs : List Value)
    (hnd : (fields.map FieldDecl.name).Nodup)
    (hname : ∀ f a b c, g f a b = some c → c.Field = f.name)
    (hexp : ∀ f a b c, g f a b = some c → f.exported = true)
    (hw : ∀ f a b c, (f, a, b) ∈ zip3 fields as bs → g f a b = some c →
      ∃ v, fieldWrite f.ty c = .setTo v) :
    ∀ c ∈ perField g fields as bs, goodChange fields c = true := by
  intro c hc
  obtain ⟨f, a, b, hmem, hg⟩ := perField_mem g fields as bs c hc
  have hf : f ∈ fields := zip3_mem_left hmem
  have hff : findField fields f.name = some f := findField_mem_nodup hnd hf
  obtain ⟨v, hv⟩ := hw f a b c hmem hg
  rw [goodChange, hname f a b c hg, hff]
  show (f.exported &&
    (match fieldWrite f.ty c with
     | .setTo _ => true
     | .noop => true
     | _ => false)) = true
  simp [hexp f a b c hg, hv]

theorem foldWrites_perField
    (g : FieldDecl → Value → Value → Option Change)
    (w v0 : FieldDecl → Value → Value → Value) :
    ∀ (fields : List FieldDecl) (as bs : List Value),
      (fields.map FieldDecl.name).Nodup →
      (∀ f a b c, g f a b = some c → c.Field = f.name) →
      (∀ f a b c, (f, a, b) ∈ zip3 fields as bs → g f a b = some c →
        fieldWrite f.ty c = .setTo (w f a b)) →
      foldWrites fields (zip3With v0 fields as bs) (perField g fields as bs)
        = zip3With (fun f a b =>
            match g f a b with
            | some _ => w f a b
            | none => v0 f a b) fields as bs
  | f :: fs, a :: as, b :: bs, hnd, hname, hw => by
    have hnd1 : (f.name :: List.map FieldDecl.name fs).Nodup := by
      rw [List.map_cons] at hnd
      exact hnd
    have hnd0 := List.nodup_cons.mp hnd1
    have hnd2 : (fs.map FieldDecl.name).Nodup := hnd0.2
    have hfn : f.name ∉ fs.map FieldDecl.name := hnd0.1
    have htail : ∀ c ∈ perField g fs as bs, c.Field ≠ f.name := by
      intro c hc he
      exact hfn (he ▸ perField_names g hname fs as bs c hc)
    have hwtail : ∀ f2 a2 b2 c, (f2, a2, b2) ∈ zip3 fs as bs → g f2 a2 b2 = some c →
        fieldWrite f2.ty c = .setTo (w f2 a2 b2) := by
      intro f2 a2 b2 c hm hg
      refine hw f2 a2 b2 c ?_ hg
      rw [zip3_cons]
      exact List.mem_cons_of_mem _ hm
    simp only [perField_cons, zip3With_cons, foldWrites_append]
    cases hg : g f a b with
    | none =>
      simp only [Option.toList]
      rw [show foldWrites (f :: fs) (v0 f a b :: zip3With v0 fs as bs) []
            = v0 f a b :: zip3With v0 fs as bs from rfl]
      rw [foldWrites_skip (perField g fs as bs) f fs (v0 f a b)
            (zip3With v0 fs as bs) htail]
      rw [foldWrites_perField g w v0 fs as bs hnd2 hname hwtail]
    | some c =>
      have hcf : c.Field = f.name := hname f a b c hg
      have hfw : fieldWrite f.ty c = .setTo (w f a b) := by
        refine hw f a b c ?_ hg
        rw [zip3_cons]
        exact List.mem_cons_self _ _
      have hwo : writeOf (f :: fs) c = some (w f a b) := by
        rw [writeOf, hcf, findField_cons_self]
        show (match fieldWrite f.ty c with
              | FieldWrite.setTo v => some v
              | _ => none) = some (w f a b)
        rw [hfw]
      have h1 : foldWrites (f :: fs) (v0 f a b :: zip3With v0 fs as bs) [c]
          = w f a b :: zip3With v0 fs as bs := by
        rw [foldWrites_cons, hwo]
        show foldWrites (f :: fs)
            (setField (f :: fs) (v0 f a b :: zip3With v0 fs as bs) c.Field
              (w f a b)) [] = _
        rw [hcf, setField_cons_self]
        rfl
      simp only [Option.toList]
      rw [h1]
      rw [foldWrites_skip (perField g fs as bs) f fs (w f a b)
            (zip3With v0 fs as bs) htail]
      rw [foldWrites_perField g w v0 fs as bs hnd2 hname hwtail]
  | [], as, bs, _, _, _ => by cases as <;> cases bs <;> rfl
  | _ :: _, [], bs, _, _, _ => by cases bs <;> rfl
  | _ :: _, _ :: _, [], _, _, _ => rfl

theorem gDiff_some {f : FieldDecl} {a b : Value} {c : Change}
    (h : gDiff f a b = some c) :
    f.exported = true ∧ deepEqual a b = false ∧
      c = { Field := f.name, ChangeType := classify f.ty a b,
            OldValue := a, NewValue := b } := by
  by_cases hc : (f.exported && !deepEqual a b) = true
  · rw [gDiff, if_pos hc] at h
    rw [Bool.and_eq_true] at hc
    obtain ⟨h1, h2⟩ := hc
    refine ⟨h1, ?_, ?_⟩
    · cases hde : deepEqual a b
      · rfl
      · rw [hde] at h2; cases h2
    · injection h with hh
      exact hh.symm
  · rw [gDiff, if_neg hc] at h
    cases h

theorem valsTyped_length :
    ∀ {fs : List FieldDecl} {vs : List Value},
      valsTyped fs vs = true → vs.length = fs.length
  | [], [], _ => rfl
  | f :: fs, v :: vs, h => by
    simp only [valsTyped, Bool.and_eq_true] at h
    simp [valsTyped_length h.2]
  | [], _ :: _, h => by simp [valsTyped] at h
  | _ :: _, [], h => by simp [valsTyped] at h

theorem initVals_eq_zip3With :
    ∀ (fs : List FieldDecl) (as bs : List Value),
      as.length = fs.length → bs.length = fs.length →
      initVals fs as
        = zip3With (fun f a _ => if f.exported then a else zeroValue f.ty) fs as bs
  | [], [], [], _, _ => rfl
  | f :: fs, a :: as, b :: bs, h1, h2 => by
    rw [show initVals (f :: fs) (a :: as)
          = (if f.exported then a else zeroValue f.ty) :: initVals fs as from rfl]
    rw [zip3With_cons]
    rw [initVals_eq_zip3With fs as bs (by simpa using h1) (by simpa using h2)]
  | [], [], _ :: _, _, h2 => by simp at h2
  | [], _ :: _, _, h1, _ => by simp at h1
  | _ :: _, [], _, h1, _ => by simp at h1
  | _ :: _, _ :: _, [], _, h2 => by simp at h2

theorem zip3With_congr {α β γ δ : Type} (h1 h2 : α → β → γ → δ)
    (he : ∀ a b c, h1 a b c = h2 a b c) :
    ∀ (as : List α) (bs : List β) (cs : List γ),
      zip3With h1 as bs cs = zip3With h2 as bs cs
  | a :: as, b :: bs, c :: cs => by
    rw [zip3With_cons, zip3With_cons, he a b c,
      zip3With_congr h1 h2 he as bs cs]
  | [], bs, cs => by cases bs <;> cases cs <;> rfl
  | _ :: _, [], cs => by cases cs <;> rfl
  | _ :: _, _ :: _, [] => rfl

theorem isDelExc_self (ty : Ty) (a : Value) : isDelExc ty a a = false := by
  cases ty <;> try rfl
  case tSlice e =>
    cases a <;> try rfl
    case vSlice e2 vs =>
      cases vs with
      | none => rfl
      | some l => cases l <;> rfl

theorem patched_eq (fields : List FieldDecl) (as bs : List Value) :
    zip3With (fun f a b =>
      match gDiff f a b with
      | some _ => if isDelExc f.ty a b then zeroValue f.ty else b
      | none => if f.exported then a else zeroValue f.ty) fields as bs
    = patchedVals fields as bs := by
  refine zip3With_congr _ _ ?_ fields as bs
  intro f a b
  by_cases hc : (f.exported && !deepEqual a b) = true
  · rw [gDiff, if_pos hc]
    rw [Bool.and_eq_true] at hc
    rw [hc.1]
    simp
  · rw [gDiff, if_neg hc]
    by_cases he : f.exported = true
    · have hde : deepEqual a b = true := by
        revert hc
        rw [he]
        cases deepEqual a b <;> simp
      have hab : a = b := deepEqual_eq_of hde
      subst hab
      rw [he, isDelExc_self]
      simp
    · have he2 : f.exported = false := by
        revert he
        cases f.exported <;> simp
      rw [he2]
      simp

theorem compareStructs_strct_ok {r r2 : Record} (hs : r.shape = r2.shape) :
    CompareStructs (.strct r) (.strct r2)
      = .ok (diffAux r.shape.fields r.vals r2.vals) := by
  simp [CompareStructs, derefStruct, hs]

/-- Shared round-trip core: applying the diff of `r` against `r2` to
`r` yields exactly `patchedVals`. -/
theorem apply_compare_eq (r r2 : Record)
    (hw1 : r.wf = true) (hw2 : r2.wf = true) (hs : r.shape = r2.shape) :
    ApplyChanges (.strct r) (diffAux r.shape.fields r.vals r2.vals)
      = .ok (.strct ⟨r.shape, patchedVals r.shape.fields r.vals r2.vals⟩) := by
  rw [Record.wf, Bool.and_eq_true] at hw1 hw2
  have hnd : (r.shape.fields.map FieldDecl.name).Nodup := by
    have h1 := hw1.1
    rw [Shape.namesNodup] at h1
    exact of_decide_eq_true h1
  have hta : valsTyped r.shape.fields r.vals = true := hw1.2
  have htb : valsTyped r.shape.fields r2.vals = true := by
    rw [hs]
    exact hw2.2
  rw [diffAux_eq_perField]
  have hname : ∀ f a b c, gDiff f a b = some c → c.Field = f.name := by
    intro f a b c h
    rw [(gDiff_some h).2.2]
  have hwrite : ∀ f a b c, (f, a, b) ∈ zip3 r.shape.fields r.vals r2.vals →
      gDiff f a b = some c →
      fieldWrite f.ty c
        = .setTo (if isDelExc f.ty a b then zeroValue f.ty else b) := by
    intro f a b c hm h
    obtain ⟨hty1, hty2⟩ := zip3_typed r.shape.fields r.vals r2.vals f a b hta htb hm
    rw [(gDiff_some h).2.2]
    exact fieldWrite_diff f.ty f.name a b hty1 hty2 (gDiff_some h).2.1
  have hgood : ∀ c ∈ perField gDiff r.shape.fields r.vals r2.vals,
      goodChange r.shape.fields c = true :=
    perField_good gDiff r.shape.fields r.vals r2.vals hnd hname
      (fun f a b c h => (gDiff_some h).1)
      (fun f a b c hm h => ⟨_, hwrite f a b c hm h⟩)
  have happ := applyAll_eq_foldWrites
    (perField gDiff r.shape.fields r.vals r2.vals) r.shape.fields
    (initVals r.shape.fields r.vals) hgood
  rw [initVals_eq_zip3With r.shape.fields r.vals r2.vals
        (valsTyped_length hta) (valsTyped_length htb)] at happ
  rw [foldWrites_perField gDiff
        (fun f a b => if isDelExc f.ty a b then zeroValue f.ty else b)
        (fun f a _ => if f.exported then a else zeroValue f.ty)
        r.shape.fields r.vals r2.vals hnd hname hwrite] at happ
  rw [patched_eq r.shape.fields r.vals r2.vals] at happ
  show (match applyAll r.shape.fields (initVals r.shape.fields r.vals)
          (perField gDiff r.shape.fields r.vals r2.vals) with
        | StepRes.ok vs => Outcome.ok (Input.strct ⟨r.shape, vs⟩)
        | StepRes.err m => Outcome.err m
        | StepRes.panicked m => Outcome.panicked m)
      = Outcome.ok (.strct ⟨r.shape, patchedVals r.shape.fields r.vals r2.vals⟩)
  rw [initVals_eq_zip3With r.shape.fields r.vals r2.vals
        (valsTyped_length hta) (valsTyped_length htb)]
  rw [happ]

theorem revert_perField (g : FieldDecl → Value → Value → Option Change) :
    ∀ (fs : List FieldDecl) (as bs : List Value),
      RevertChanges (perField g fs as bs)
        = perField (fun f a b => (g f a b).map revertOne) fs as bs
  | f :: fs, a :: as, b :: bs => by
    rw [perField_cons, perField_cons, RevertChanges, List.map_append]
    rw [show (perField g fs as bs).map revertOne
          = RevertChanges (perField g fs as bs) from rfl]
    rw [revert_perField g fs as bs]
    cases hg : g f a b <;> rfl
  | [], as, bs => by cases as <;> cases bs <;> rfl
  | _ :: _, [], bs => by cases bs <;> rfl
  | _ :: _, _ :: _, [] => rfl

theorem isAddExc_self (ty : Ty) (a : Value) : isAddExc ty a a = false := by
  cases ty <;> try rfl
  case tSlice e =>
    cases a <;> try rfl
    case vSlice e2 vs =>
      cases vs with
      | none => rfl
      | some l => cases l <;> rfl

theorem gRev_some {f : FieldDecl} {a b : Value} {c2 : Change}
    (h : (gDiff f a b).map revertOne = some c2) :
    ∃ c, gDiff f a b = some c ∧ c2 = revertOne c := by
  cases hg : gDiff f a b with
  | none => rw [hg] at h; cases h
  | some c =>
    rw [hg] at h
    injection h with hh
    exact ⟨c, rfl, hh.symm⟩

theorem initVals_patched :
    ∀ (fs : List FieldDecl) (as bs : List Value),
      initVals fs (patchedVals fs as bs) = patchedVals fs as bs
  | f :: fs, a :: as, b :: bs => by
    rw [patchedVals, zip3With_cons]
    rw [show initVals (f :: fs)
          ((if f.exported then (if isDelExc f.ty a b then zeroValue f.ty else b)
            else zeroValue f.ty) :: zip3With _ fs as bs)
          = (if f.exported then
               (if f.exported then (if isDelExc f.ty a b then zeroValue f.ty else b)
                else zeroValue f.ty)
             else zeroValue f.ty) :: initVals fs (zip3With _ fs as bs) from rfl]
    rw [show zip3With (fun f a b =>
          if f.exported then (if isDelExc f.ty a b then zeroValue f.ty else b)
          else zeroValue f.ty) fs as bs = patchedVals fs as bs from rfl]
    rw [initVals_patched fs as bs]
    by_cases he : f.exported = true <;> simp [he]
  | [], as, bs => by cases as <;> cases bs <;> rfl
  | _ :: _, [], bs => by cases bs <;> rfl
  | _ :: _, _ :: _, [] => rfl

theorem revertRound_eq (fields : List FieldDecl) (as bs : List Value) :
    zip3With (fun f a b =>
      match (gDiff f a b).map revertOne with
      | some _ => if isAddExc f.ty a b then zeroValue f.ty else a
      | none =>
          if f.exported then (if isDelExc f.ty a b then zeroValue f.ty else b)
          else zeroValue f.ty) fields as bs
    = revertRoundVals fields as bs := by
  refine zip3With_congr _ _ ?_ fields as bs
  intro f a b
  by_cases hc : (f.exported && !deepEqual a b) = true
  · rw [gDiff, if_pos hc]
    rw [Bool.and_eq_true] at hc
    rw [hc.1]
    simp
  · rw [gDiff, if_neg hc]
    by_cases he : f.exported = true
    · have hde : deepEqual a b = true := by
        revert hc
        rw [he]
        cases deepEqual a b <;> simp
      have hab : a = b := deepEqual_eq_of hde
      subst hab
      rw [he, isDelExc_self, isAddExc_self]
      simp
    · have he2 : f.exported = false := by
        revert he
        cases f.exported <;> simp
      rw [he2]
      simp

/-- Shared revert core: applying the reverted diff to the patched
record restores `a`'s exported values up to the `isAddExc` slice
exception, with private fields zero. -/
theorem apply_revert_eq (r r2 : Record)
    (hw1 : r.wf = true) (hw2 : r2.wf = true) (hs : r.shape = r2.shape) :
    ApplyChanges (.strct ⟨r.shape, patchedVals r.shape.fields r.vals r2.vals⟩)
        (RevertChanges (diffAux r.shape.fields r.vals r2.vals))
      = .ok (.strct ⟨r.shape, revertRoundVals r.shape.fields r.vals r2.vals⟩) := by
  rw [Record.wf, Bool.and_eq_true] at hw1 hw2
  have hnd : (r.shape.fields.map FieldDecl.name).Nodup := by
    have h1 := hw1.1
    rw [Shape.namesNodup] at h1
    exact of_decide_eq_true h1
  have hta : valsTyped r.shape.fields r.vals = true := hw1.2
  have htb : valsTyped r.shape.fields r2.vals = true := by
    rw [hs]
    exact hw2.2
  rw [diffAux_eq_perField, revert_perField]
  have hname : ∀ f a b c, (gDiff f a b).map revertOne = some c → c.Field = f.name := by
    intro f a b c h
    obtain ⟨c0, hg, rfl⟩ := gRev_some h
    rw [revertOne, (gDiff_some hg).2.2]
  have hwrite : ∀ f a b c, (f, a, b) ∈ zip3 r.shape.fields r.vals r2.vals →
      (gDiff f a b).map revertOne = some c →
      fieldWrite f.ty c
        = .setTo (if isAddExc f.ty a b then zeroValue f.ty else a) := by
    intro f a b c hm h
    obtain ⟨c0, hg, rfl⟩ := gRev_some h
    obtain ⟨hty1, hty2⟩ := zip3_typed r.shape.fields r.vals r2.vals f a b hta htb hm
    rw [(gDiff_some hg).2.2]
    exact fieldWrite_revertDiff f.ty f.name a b hty1 hty2 (gDiff_some hg).2.1
  have hgood : ∀ c ∈ perField (fun f a b => (gDiff f a b).map revertOne)
      r.shape.fields r.vals r2.vals, goodChange r.shape.fields c = true :=
    perField_good _ r.shape.fields r.vals r2.vals hnd hname
      (fun f a b c h => (gDiff_some (gRev_some h).choose_spec.1).1)
      (fun f a b c hm h => ⟨_, hwrite f a b c hm h⟩)
  have happ := applyAll_eq_foldWrites
    (perField (fun f a b => (gDiff f a b).map revertOne) r.shape.fields r.vals r2.vals)
    r.shape.fields
    (initVals r.shape.fields (patchedVals r.shape.fields r.vals r2.vals)) hgood
  rw [initVals_patched] at happ
  rw [show patchedVals r.shape.fields r.vals r2.vals
        = zip3With (fun f a b =>
            if f.exported then (if isDelExc f.ty a b then zeroValue f.ty else b)
            else zeroValue f.ty) r.shape.fields r.vals r2.vals from rfl] at happ
  rw [foldWrites_perField (fun f a b => (gDiff f a b).map revertOne)
        (fun f a b => if isAddExc f.ty a b then zeroValue f.ty else a)
        (fun f a b =>
          if f.exported then (if isDelExc f.ty a b then zeroValue f.ty else b)
          else zeroValue f.ty)
        r.shape.fields r.vals r2.vals hnd hname hwrite] at happ
  rw [revertRound_eq r.shape.fields r.vals r2.vals] at happ
  show (match applyAll r.shape.fields
          (initVals r.shape.fields (patchedVals r.shape.fields r.vals r2.vals))
          (perField (fun f a b => (gDiff f a b).map revertOne)
            r.shape.fields r.vals r2.vals) with
        | StepRes.ok vs => Outcome.ok (Input.strct ⟨r.shape, vs⟩)
        | StepRes.err m => Outcome.err m
        | StepRes.panicked m => Outcome.panicked m)
      = Outcome.ok (.strct ⟨r.shape, revertRoundVals r.shape.fields r.vals r2.vals⟩)
  rw [initVals_patched]
  rw [show patchedVals r.shape.fields r.vals r2.vals
        = zip3With (fun f a b =>
            if f.exported then (if isDelExc f.ty a b then zeroValue f.ty else b)
            else zeroValue f.ty) r.shape.fields r.vals r2.vals from rfl]
  rw [happ]

/-- C1 (amended): for every pair of well-formed records `r`, `r2` of
the same shape, `ApplyChanges(r, CompareStructs(r, r2))` succeeds, and
the result is `r2` on exported fields — except that a slice field the
diff classified `Deleted` (old non-empty, new empty) is set to the nil
slice, which deep equality distinguishes from an empty non-nil slice
in `r2` — while every private field holds its zero value (`r`'s
private values are not retained). -/
theorem patch_roundtrip_amended (r r2 : Record) (cs : List Change)
    (hw1 : r.wf = true) (hw2 : r2.wf = true) (hs : r.shape = r2.shape)
    (hcs : CompareStructs (.strct r) (.strct r2) = .ok cs) :
    ApplyChanges (.strct r) cs
      = .ok (.strct ⟨r.shape, patchedVals r.shape.fields r.vals r2.vals⟩) := by
  have hcs2 : diffAux r.shape.fields r.vals r2.vals = cs := by
    rw [compareStructs_strct_ok hs] at hcs
    injection hcs
  subst hcs2
  exact apply_compare_eq r r2 hw1 hw2 hs

/-- C1 counterexample: at `rJohn` / `rJane` the round trip leaves the
result's `Children` not deeply equal to `rJane`'s empty non-nil slice
(it becomes the nil slice), and the private field `secret` does not
retain `rJohn`'s value `"s3"` (it becomes the empty string) — so the
claim as stated fails on both counts at this input. -/
theorem patch_roundtrip_cex :
    CompareStructs (.strct rJohn) (.strct rJane)
      = .ok [⟨"Age", Modified, .vInt 30, .vInt 31⟩,
             ⟨"Children", Deleted, .vSlice .tString (some [.vString "Alice"]),
              .vSlice .tString (some [])⟩] ∧
    ApplyChanges (.strct rJohn)
        [⟨"Age", Modified, .vInt 30, .vInt 31⟩,
         ⟨"Children", Deleted, .vSlice .tString (some [.vString "Alice"]),
          .vSlice .tString (some [])⟩]
      = .ok (.strct ⟨personShape,
          [.vString "John", .vInt 31, .vSlice .tString none, .vString ""]⟩) ∧
    deepEqual (.vSlice .tString none) (.vSlice .tString (some [])) = false ∧
    Value.vString "" ≠ Value.vString "s3" := by
  refine ⟨rfl, rfl, rfl, ?_⟩
  decide

/-- C1 witness: the amended round-trip law applied at the concrete
records `rJohn`, `rJane`. -/
theorem patch_roundtrip_amended_witness :
    rJohn.wf = true ∧ rJane.wf = true ∧
    ApplyChanges (.strct rJohn)
        [⟨"Age", Modified, .vInt 30, .vInt 31⟩,
         ⟨"Children", Deleted, .vSlice .tString (some [.vString "Alice"]),
          .vSlice .tString (some [])⟩]
      = .ok (.strct ⟨personShape,
          patchedVals personShape.fields rJohn.vals rJane.vals⟩) :=
  ⟨by decide, by decide,
   patch_roundtrip_amended rJohn rJane
     [⟨"Age", Modified, .vInt 30, .vInt 31⟩,
      ⟨"Children", Deleted, .vSlice .tString (some [.vString "Alice"]),
       .vSlice .tString (some [])⟩]
     (by decide) (by decide) rfl rfl⟩

/-- C2 (amended): for every pair of well-formed records `a`, `b` of
the same shape and `c = CompareStructs(a, b)`, both
`ApplyChanges(a, c)` and `ApplyChanges(ApplyChanges(a, c), RevertChanges(c))`
succeed, and the final record equals `a` on exported fields — except
that a slice field the diff classified `Added` (old empty, new
non-empty) reverts to the nil slice even when `a` held an empty
non-nil slice — while private fields hold zero values (the claim
restricts itself to exported fields). -/
theorem revert_inverse_amended (a b : Record) (cs : List Change)
    (hw1 : a.wf = true) (hw2 : b.wf = true) (hs : a.shape = b.shape)
    (hcs : CompareStructs (.strct a) (.strct b) = .ok cs) :
    ApplyChanges (.strct a) cs
        = .ok (.strct ⟨a.shape, patchedVals a.shape.fields a.vals b.vals⟩) ∧
    ApplyChanges (.strct ⟨a.shape, patchedVals a.shape.fields a.vals b.vals⟩)
        (RevertChanges cs)
      = .ok (.strct ⟨a.shape, revertRoundVals a.shape.fields a.vals b.vals⟩) := by
  have hcs2 : diffAux a.shape.fields a.vals b.vals = cs := by
    rw [compareStructs_strct_ok hs] at hcs
    injection hcs
  subst hcs2
  exact ⟨apply_compare_eq a b hw1 hw2 hs, apply_revert_eq a b hw1 hw2 hs⟩

/-- C2 counterexample: at `a = rEmptyKids` (whose `Children` is the
empty non-nil slice) and `b = rOneKid`, the diff is a single `Added`
change; applying it and then its reversal yields a record whose
`Children` is the nil slice, which is not deeply equal to `a`'s empty
non-nil slice — the claimed inverse law fails on this exported
field. -/
theorem revert_inverse_cex :
    CompareStructs (.strct rEmptyKids) (.strct rOneKid)
      = .ok [⟨"Children", Added, .vSlice .tString (some []),
              .vSlice .tString (some [.vString "Kim"])⟩] ∧
    ApplyChanges (.strct rEmptyKids)
        [⟨"Children", Added, .vSlice .tString (some []),
          .vSlice .tString (some [.vString "Kim"])⟩]
      = .ok (.strct ⟨personShape,
          [.vString "Ann", .vInt 5, .vSlice .tString (some [.vString "Kim"]),
           .vString ""]⟩) ∧
    RevertChanges
        [⟨"Children", Added, .vSlice .tString (some []),
          .vSlice .tString (some [.vString "Kim"])⟩]
      = [⟨"Children", Deleted, .vSlice .tString (some [.vString "Kim"]),
          .vSlice .tString (some [])⟩] ∧
    ApplyChanges
        (.strct ⟨personShape,
          [.vString "Ann", .vInt 5, .vSlice .tString (some [.vString "Kim"]),
           .vString ""]⟩)
        [⟨"Children", Deleted, .vSlice .tString (some [.vString "Kim"]),
          .vSlice .tString (some [])⟩]
      = .ok (.strct ⟨personShape,
          [.vString "Ann", .vInt 5, .vSlice .tString none, .vString ""]⟩) ∧
    deepEqual (.vSlice .tString none) (.vSlice .tString (some [])) = false := by
  exact ⟨rfl, rfl, rfl, rfl, rfl⟩

/-- C2 witness: the amended inverse law applied at the concrete
records `rEmptyKids`, `rOneKid`. -/
theorem revert_inverse_amended_witness :
    rEmptyKids.wf = true ∧ rOneKid.wf = true ∧
    (ApplyChanges (.strct rEmptyKids)
        [⟨"Children", Added, .vSlice .tString (some []),
          .vSlice .tString (some [.vString "Kim"])⟩]
      = .ok (.strct ⟨personShape,
          patchedVals personShape.fields rEmptyKids.vals rOneKid.vals⟩) ∧
     ApplyChanges
        (.strct ⟨personShape,
          patchedVals personShape.fields rEmptyKids.vals rOneKid.vals⟩)
        (RevertChanges
          [⟨"Children", Added, .vSlice .tString (some []),
            .vSlice .tString (some [.vString "Kim"])⟩])
      = .ok (.strct ⟨personShape,
          revertRoundVals personShape.fields rEmptyKids.vals rOneKid.vals⟩)) :=
  ⟨by decide, by decide,
   revert_inverse_amended rEmptyKids rOneKid
     [⟨"Children", Added, .vSlice .tString (some []),
       .vSlice .tString (some [.vString "Kim"])⟩]
     (by decide) (by decide) rfl rfl⟩

/-- C4: code-bug exhibit.  A `Modified` change carrying a nil
`NewValue` for the `int` field `Age` does not return the
`ConversionError` the specification prescribes: the nil fast path
(change.go lines 58-64) only covers pointer, interface, map and slice
kinds, so control falls through to
`reflect.ValueOf(change.NewValue).Type()` on the invalid zero
`reflect.Value`, which panics instead of returning an error. -/
theorem apply_nil_newvalue_panics :
    ApplyChanges (.strct rJohn)
        [⟨"Age", Modified, .vNil, .vNil⟩]
      = .panicked "reflect: call of reflect.Value.Type on zero Value" := rfl

theorem setField_get_ne :
    ∀ (fields : List FieldDecl) (vs : List Value) (n : String) (x : Value)
      (i : Nat) (f : FieldDecl),
      fields.get? i = some f → f.name ≠ n →
      (setField fields vs n x).get? i = vs.get? i
  | [], vs, n, x, i, f, hf, _ => by simp at hf
  | f0 :: fs, [], n, x, i, f, hf, hne => by
    rw [show setField (f0 :: fs) [] n x = [] from rfl]
  | f0 :: fs, v :: vs, n, x, i, f, hf, hne => by
    by_cases h0 : f0.name = n
    · rw [show setField (f0 :: fs) (v :: vs) n x = x :: vs from by
        simp [setField, h0]]
      cases i with
      | zero =>
        have hff : f0 = f := by simpa using hf
        exact absurd (hff ▸ h0) hne
      | succ j => rfl
    · rw [show setField (f0 :: fs) (v :: vs) n x = v :: setField fs vs n x from by
        simp [setField, h0]]
      cases i with
      | zero => rfl
      | succ j => exact setField_get_ne fs vs n x j f hf hne

theorem applyOne_ok_get_ne (fields : List FieldDecl) (vals : List Value)
    (c : Change) (vals2 : List Value) (i : Nat) (f : FieldDecl)
    (hnd : (fields.map FieldDecl.name).Nodup)
    (h : applyOne fields vals c = .ok vals2)
    (hf : fields.get? i = some f)
    (hcase : f.exported = false ∨ c.Field ≠ f.name) :
    vals2.get? i = vals.get? i := by
  rw [applyOne] at h
  cases hff : findField fields c.Field with
  | none => rw [hff] at h; cases h
  | some fd =>
    rw [hff] at h
    have h2 : (if (!fd.exported) = true then
        StepRes.err ("field " ++ c.Field ++ " is not settable")
      else
        match fieldWrite fd.ty c with
        | .setTo v => StepRes.ok (setField fields vals c.Field v)
        | .noop => StepRes.ok vals
        | .convErr => StepRes.err ("cannot convert value for field " ++ c.Field)
        | .typePanic =>
            StepRes.panicked "reflect: call of reflect.Value.Type on zero Value")
        = StepRes.ok vals2 := h
    by_cases hexp : fd.exported = true
    · have hne : c.Field ≠ f.name := by
        rcases hcase with hpriv | hne2
        · intro he
          have hmem : f ∈ fields := List.get?_mem hf
          have hfind : findField fields c.Field = some f := by
            rw [he]
            exact findField_mem_nodup hnd hmem
          rw [hff] at hfind
          injection hfind with hfd
          rw [hfd] at hexp
          rw [hexp] at hpriv
          cases hpriv
        · exact hne2
      have h3 : (match fieldWrite fd.ty c with
        | FieldWrite.setTo v => StepRes.ok (setField fields vals c.Field v)
        | FieldWrite.noop => StepRes.ok vals
        | FieldWrite.convErr =>
            StepRes.err ("cannot convert value for field " ++ c.Field)
        | FieldWrite.typePanic =>
            StepRes.panicked "reflect: call of reflect.Value.Type on zero Value")
          = StepRes.ok vals2 := by simpa [hexp] using h2
      have hcase2 : (∃ v, fieldWrite fd.ty c = .setTo v) ∨
          fieldWrite fd.ty c = .noop := by
        cases hw : fieldWrite fd.ty c
        · exact Or.inl ⟨_, rfl⟩
        · exact Or.inr rfl
        · rw [hw] at h3; exact StepRes.noConfusion h3
        · rw [hw] at h3; exact StepRes.noConfusion h3
      rcases hcase2 with ⟨v, hwts⟩ | hnoop
      · rw [hwts] at h3
        have h4 : StepRes.ok (setField fields vals c.Field v)
            = StepRes.ok vals2 := h3
        injection h4 with h5
        rw [← h5]
        exact setField_get_ne fields vals c.Field v i f hf (Ne.symm hne)
      · rw [hnoop] at h3
        have h4 : StepRes.ok vals = StepRes.ok vals2 := h3
        injection h4 with h5
        rw [← h5]
    · have hexp2 : fd.exported = false := by
        revert hexp
        cases fd.exported <;> simp
      rw [hexp2] at h2
      simp at h2

theorem applyAll_ok_get_ne :
    ∀ (cs : List Change) (fields : List FieldDecl) (vals vals2 : List Value)
      (i : Nat) (f : FieldDecl),
      (fields.map FieldDecl.name).Nodup →
      applyAll fields vals cs = .ok vals2 →
      fields.get? i = some f →
      (f.exported = false ∨ ∀ c ∈ cs, c.Field ≠ f.name) →
      vals2.get? i = vals.get? i
  | [], fields, vals, vals2, i, f, _, h, _, _ => by
    have h2 : StepRes.ok vals = StepRes.ok vals2 := h
    injection h2 with h3
    rw [← h3]
  | c :: cs, fields, vals, vals2, i, f, hnd, h, hf, hcase => by
    rw [applyAll] at h
    cases ho : applyOne fields vals c with
    | ok w =>
      rw [ho] at h
      have hstep : w.get? i = vals.get? i :=
        applyOne_ok_get_ne fields vals c w i f hnd ho hf
          (by
            rcases hcase with hp | hall
            · exact Or.inl hp
            · exact Or.inr (hall c (List.mem_cons_self c cs)))
      have hrest : vals2.get? i = w.get? i :=
        applyAll_ok_get_ne cs fields w vals2 i f hnd h hf
          (by
            rcases hcase with hp | hall
            · exact Or.inl hp
            · exact Or.inr fun d hd => hall d (List.mem_cons_of_mem c hd))
      rw [hrest, hstep]
    | err m => rw [ho] at h; cases h
    | panicked m => rw [ho] at h; cases h

theorem initVals_get :
    ∀ (fs : List FieldDecl) (vs : List Value) (i : Nat) (f : FieldDecl),
      fs.get? i = some f →
      (initVals fs vs).get? i
        = (vs.get? i).map (fun v => if f.exported then v else zeroValue f.ty)
  | [], vs, i, f, hf => by simp at hf
  | f0 :: fs, [], i, f, hf => by
    rw [show initVals (f0 :: fs) [] = [] from rfl]
    simp
  | f0 :: fs, v :: vs, i, f, hf => by
    rw [show initVals (f0 :: fs) (v :: vs)
          = (if f0.exported then v else zeroValue f0.ty) :: initVals fs vs from rfl]
    cases i with
    | zero =>
      have hff : f0 = f := by simpa using hf
      subst hff
      rfl
    | succ j => exact initVals_get fs vs j f hf

/-- C7: the patch engine never mutates the record passed in — the
embedding is a pure function of it, and `ApplyChanges` constructs its
result from a fresh zero instance (change.go lines 24-32).  On success
the result has the input's shape; every private field holds its type's
zero value (it is never copied from the original); every exported
field named by no change in the list holds the original's value.
Stated for both passing conventions (value and pointer). -/
theorem apply_frame (r res : Record) (cs : List Change)
    (hw : r.wf = true)
    (h : ApplyChanges (.strct r) cs = .ok (.strct res)
         ∨ ApplyChanges (.ptr r) cs = .ok (.ptr res)) :
    res.shape = r.shape ∧
    ∀ i f, r.shape.fields.get? i = some f →
      (f.exported = false → res.vals.get? i = some (zeroValue f.ty)) ∧
      (f.exported = true → (∀ c ∈ cs, c.Field ≠ f.name) →
        res.vals.get? i = r.vals.get? i) := by
  rw [Record.wf, Bool.and_eq_true] at hw
  have hnd : (r.shape.fields.map FieldDecl.name).Nodup := by
    have h1 := hw.1
    rw [Shape.namesNodup] at h1
    exact of_decide_eq_true h1
  have hlen : r.vals.length = r.shape.fields.length := valsTyped_length hw.2
  have hall : applyAll r.shape.fields (initVals r.shape.fields r.vals) cs
      = .ok res.vals ∧ res.shape = r.shape := by
    rcases h with h | h
    · revert h
      show (match applyAll r.shape.fields (initVals r.shape.fields r.vals) cs with
            | StepRes.ok vs => Outcome.ok (Input.strct ⟨r.shape, vs⟩)
            | StepRes.err m => Outcome.err m
            | StepRes.panicked m => Outcome.panicked m)
          = .ok (.strct res) → _
      intro h
      cases ha : applyAll r.shape.fields (initVals r.shape.fields r.vals) cs with
      | ok vs =>
        rw [ha] at h
        have h2 : Outcome.ok (Input.strct ⟨r.shape, vs⟩)
            = Outcome.ok (Input.strct res) := h
        injection h2 with h3
        injection h3 with h4
        constructor
        · rw [← h4]
        · rw [← h4]
      | err m => rw [ha] at h; exact Outcome.noConfusion h
      | panicked m => rw [ha] at h; exact Outcome.noConfusion h
    · revert h
      show (match applyAll r.shape.fields (initVals r.shape.fields r.vals) cs with
            | StepRes.ok vs => Outcome.ok (Input.ptr ⟨r.shape, vs⟩)
            | StepRes.err m => Outcome.err m
            | StepRes.panicked m => Outcome.panicked m)
          = .ok (.ptr res) → _
      intro h
      cases ha : applyAll r.shape.fields (initVals r.shape.fields r.vals) cs with
      | ok vs =>
        rw [ha] at h
        have h2 : Outcome.ok (Input.ptr ⟨r.shape, vs⟩)
            = Outcome.ok (Input.ptr res) := h
        injection h2 with h3
        injection h3 with h4
        constructor
        · rw [← h4]
        · rw [← h4]
      | err m => rw [ha] at h; exact Outcome.noConfusion h
      | panicked m => rw [ha] at h; exact Outcome.noConfusion h
  obtain ⟨happ, hshape⟩ := hall
  refine ⟨hshape, ?_⟩
  intro i f hf
  have hi : i < r.shape.fields.length := by
    rcases List.get?_eq_some.mp hf with ⟨hlt, _⟩
    exact hlt
  have hi2 : i < r.vals.length := by
    rw [hlen]
    exact hi
  constructor
  · intro hpriv
    have h1 : res.vals.get? i = (initVals r.shape.fields r.vals).get? i :=
      applyAll_ok_get_ne cs r.shape.fields _ _ i f hnd happ hf (Or.inl hpriv)
    rw [h1, initVals_get r.shape.fields r.vals i f hf, hpriv,
      List.get?_eq_get hi2]
    simp
  · intro hexp hun
    have h1 : res.vals.get? i = (initVals r.shape.fields r.vals).get? i :=
      applyAll_ok_get_ne cs r.shape.fields _ _ i f hnd happ hf (Or.inr hun)
    rw [h1, initVals_get r.shape.fields r.vals i f hf, hexp]
    simp

/-- C7 witness: the frame property applied at `rJohn` with a single
change to `Name`. -/
theorem apply_frame_witness :
    rJohn.wf = true ∧
    ((⟨personShape,
       [.vString "Jane", .vInt 30, .vSlice .tString (some [.vString "Alice"]),
        .vString ""]⟩ : Record).shape = rJohn.shape ∧
     ∀ i f, rJohn.shape.fields.get? i = some f →
       (f.exported = false →
         (⟨personShape,
           [.vString "Jane", .vInt 30,
            .vSlice .tString (some [.vString "Alice"]), .vString ""]⟩ :
            Record).vals.get? i = some (zeroValue f.ty)) ∧
       (f.exported = true →
         (∀ c ∈ [(⟨"Name", Modified, .vNil, .vString "Jane"⟩ : Change)],
            c.Field ≠ f.name) →
         (⟨personShape,
           [.vString "Jane", .vInt 30,
            .vSlice .tString (some [.vString "Alice"]), .vString ""]⟩ :
            Record).vals.get? i = rJohn.vals.get? i)) :=
  ⟨by decide,
   apply_frame rJohn
     ⟨personShape,
      [.vString "Jane", .vInt 30, .vSlice .tString (some [.vString "Alice"]),
       .vString ""]⟩
     [⟨"Name", Modified, .vNil, .vString "Jane"⟩]
     (by decide) (Or.inl rfl)⟩

theorem applyOne_eraseOld (fields : List FieldDecl) (vals : List Value)
    (c : Change) : applyOne fields vals c = applyOne fields vals (eraseOld c) := rfl

theorem applyAll_eraseOld :
    ∀ (cs1 cs2 : List Change) (fields : List FieldDecl) (vals : List Value),
      cs1.map eraseOld = cs2.map eraseOld →
      applyAll fields vals cs1 = applyAll fields vals cs2
  | [], [], _, _, _ => rfl
  | c1 :: cs1, c2 :: cs2, fields, vals, h => by
    simp only [List.map_cons, List.cons.injEq] at h
    have h1 : applyOne fields vals c1 = applyOne fields vals c2 := by
      rw [applyOne_eraseOld fields vals c1, applyOne_eraseOld fields vals c2, h.1]
    rw [applyAll, applyAll, h1]
    cases applyOne fields vals c2 with
    | ok w => exact applyAll_eraseOld cs1 cs2 fields w h.2
    | err m => rfl
    | panicked m => rfl
  | [], _ :: _, _, _, h => by simp at h
  | _ :: _, [], _, _, h => by simp at h

/-- C10: `ApplyChanges` never reads `OldValue` — any two change lists
that agree after blanking their `OldValue` components produce
identical outcomes (same success, error or panic, and identical result
records) on every original. -/
theorem apply_ignores_oldvalue (original : Input) (cs1 cs2 : List Change)
    (h : cs1.map eraseOld = cs2.map eraseOld) :
    ApplyChanges original cs1 = ApplyChanges original cs2 := by
  cases original with
  | strct r =>
    show (match applyAll r.shape.fields (initVals r.shape.fields r.vals) cs1 with
          | StepRes.ok vs => Outcome.ok (Input.strct ⟨r.shape, vs⟩)
          | StepRes.err m => Outcome.err m
          | StepRes.panicked m => Outcome.panicked m)
        = (match applyAll r.shape.fields (initVals r.shape.fields r.vals) cs2 with
          | StepRes.ok vs => Outcome.ok (Input.strct ⟨r.shape, vs⟩)
          | StepRes.err m => Outcome.err m
          | StepRes.panicked m => Outcome.panicked m)
    rw [applyAll_eraseOld cs1 cs2 r.shape.fields (initVals r.shape.fields r.vals) h]
  | ptr r =>
    show (match applyAll r.shape.fields (initVals r.shape.fields r.vals) cs1 with
          | StepRes.ok vs => Outcome.ok (Input.ptr ⟨r.shape, vs⟩)
          | StepRes.err m => Outcome.err m
          | StepRes.panicked m => Outcome.panicked m)
        = (match applyAll r.shape.fields (initVals r.shape.fields r.vals) cs2 with
          | StepRes.ok vs => Outcome.ok (Input.ptr ⟨r.shape, vs⟩)
          | StepRes.err m => Outcome.err m
          | StepRes.panicked m => Outcome.panicked m)
    rw [applyAll_eraseOld cs1 cs2 r.shape.fields (initVals r.shape.fields r.vals) h]
  | nilPtr s => rfl
  | prim v => rfl

/-- C10 witness: two single-change lists differing only in `OldValue`
produce identical results on `rJohn`. -/
theorem apply_ignores_oldvalue_witness :
    ApplyChanges (.strct rJohn) [⟨"Age", Modified, .vInt 999, .vInt 31⟩]
      = ApplyChanges (.strct rJohn)
          [⟨"Age", Modified, .vString "irrelevant", .vInt 31⟩] :=
  apply_ignores_oldvalue (.strct rJohn)
    [⟨"Age", Modified, .vInt 999, .vInt 31⟩]
    [⟨"Age", Modified, .vString "irrelevant", .vInt 31⟩] (by decide)

/-- C6: `CompareStructs` returns an error exactly when, after one
level of pointer dereferencing, either input is not a struct (Go error
`"both arguments must be structs"`, the spec's ShapeError "not a
record") or the two structs' declared types differ (Go error
`"both structs must be of the same type"`, the spec's ShapeError
"shape mismatch"); for inputs that dereference to structs of the same
declared type it returns a change list and no error. -/
theorem compare_raises_iff (old new : Input) :
    (CompareStructs old new = .error "both arguments must be structs"
        ↔ (derefStruct old = none ∨ derefStruct new = none)) ∧
    (CompareStructs old new = .error "both structs must be of the same type"
        ↔ (∃ o n, derefStruct old = some o ∧ derefStruct new = some n ∧
            o.shape ≠ n.shape)) ∧
    ((∃ cs, CompareStructs old new = .ok cs)
        ↔ (∃ o n, derefStruct old = some o ∧ derefStruct new = some n ∧
            o.shape = n.shape)) := by
  cases h1 : derefStruct old with
  | none =>
    have hcs : CompareStructs old new = .error "both arguments must be structs" := by
      cases h2 : derefStruct new <;> simp [CompareStructs, h1, h2]
    refine ⟨⟨fun _ => Or.inl rfl, fun _ => hcs⟩, ?_, ?_⟩
    · constructor
      · intro he
        rw [hcs] at he
        injection he with hm
        exact absurd hm (by decide)
      · rintro ⟨o, n, ho, _, _⟩
        cases ho
    · constructor
      · rintro ⟨cs, hc⟩
        rw [hcs] at hc
        exact Except.noConfusion hc
      · rintro ⟨o, n, ho, _, _⟩
        cases ho
  | some o =>
    cases h2 : derefStruct new with
    | none =>
      have hcs : CompareStructs old new = .error "both arguments must be structs" := by
        simp [CompareStructs, h1, h2]
      refine ⟨⟨fun _ => Or.inr rfl, fun _ => hcs⟩, ?_, ?_⟩
      · constructor
        · intro he
          rw [hcs] at he
          injection he with hm
          exact absurd hm (by decide)
        · rintro ⟨o2, n2, _, hn, _⟩
          cases hn
      · constructor
        · rintro ⟨cs, hc⟩
          rw [hcs] at hc
          exact Except.noConfusion hc
        · rintro ⟨o2, n2, _, hn, _⟩
          cases hn
    | some n =>
      have hcs : CompareStructs old new
          = if o.shape = n.shape
            then .ok (diffAux o.shape.fields o.vals n.vals)
            else .error "both structs must be of the same type" := by
        simp [CompareStructs, h1, h2]
      by_cases hsh : o.shape = n.shape
      · rw [if_pos hsh] at hcs
        refine ⟨?_, ?_, ?_⟩
        · constructor
          · intro he
            rw [hcs] at he
            exact Except.noConfusion he
          · rintro (ho | hn)
            · cases ho
            · cases hn
        · constructor
          · intro he
            rw [hcs] at he
            exact Except.noConfusion he
          · rintro ⟨o2, n2, ho, hn, hne⟩
            injection ho with ho2
            injection hn with hn2
            subst ho2
            subst hn2
            exact absurd hsh hne
        · constructor
          · intro _
            exact ⟨o, n, rfl, rfl, hsh⟩
          · intro _
            exact ⟨diffAux o.shape.fields o.vals n.vals, hcs⟩
      · rw [if_neg hsh] at hcs
        refine ⟨?_, ?_, ?_⟩
        · constructor
          · intro he
            rw [hcs] at he
            injection he with hm
            exact absurd hm.symm (by decide)
          · rintro (ho | hn)
            · cases ho
            · cases hn
        · exact ⟨fun _ => ⟨o, n, rfl, rfl, hsh⟩, fun _ => hcs⟩
        · constructor
          · rintro ⟨cs, hc⟩
            rw [hcs] at hc
            exact Except.noConfusion hc
          · rintro ⟨o2, n2, ho, hn, he⟩
            injection ho with ho2
            injection hn with hn2
            subst ho2
            subst hn2
            exact absurd he hsh

theorem find?_append {α : Type} (l1 l2 : List α) (p : α → Bool) :
    (l1 ++ l2).find? p
      = match l1.find? p with
        | some a => some a
        | none => l2.find? p := by
  induction l1 with
  | nil => rfl
  | cons a l1 ih =>
    rw [List.cons_append, List.find?_cons, List.find?_cons]
    cases p a <;> simp [ih]

theorem insertMerged_mem_fields :
    ∀ (acc : List Change) (c : Change) (x : String),
      x ∈ (insertMerged acc c).map Change.Field →
      x ∈ acc.map Change.Field ∨ x = c.Field
  | [], c, x, h => by
    rw [insertMerged] at h
    simp at h
    exact Or.inr h
  | d :: ds, c, x, h => by
    rw [insertMerged] at h
    by_cases hdc : (d.Field == c.Field) = true
    · rw [if_pos hdc] at h
      simp at h
      rcases h with h | h
      · exact Or.inr h
      · exact Or.inl (by simp [h])
    · rw [if_neg hdc] at h
      simp at h
      rcases h with h | h
      · exact Or.inl (by simp [h])
      · rcases insertMerged_mem_fields ds c x (by simpa using h) with h2 | h2
        · exact Or.inl (by simp; exact Or.inr (by simpa using h2))
        · exact Or.inr h2

theorem insertMerged_nodup :
    ∀ (acc : List Change) (c : Change),
      (acc.map Change.Field).Nodup →
      ((insertMerged acc c).map Change.Field).Nodup
  | [], c, _ => by simp [insertMerged]
  | d :: ds, c, hnd => by
    rw [insertMerged]
    rw [List.map_cons, List.nodup_cons] at hnd
    by_cases hdc : (d.Field == c.Field) = true
    · rw [if_pos hdc]
      rw [List.map_cons, List.nodup_cons]
      have he : d.Field = c.Field := beq_iff_eq.mp hdc
      exact ⟨he ▸ hnd.1, hnd.2⟩
    · rw [if_neg hdc]
      rw [List.map_cons, List.nodup_cons]
      constructor
      · intro hmem
        rcases insertMerged_mem_fields ds c d.Field hmem with h2 | h2
        · exact hnd.1 h2
        · exact absurd (beq_iff_eq.mpr h2) (by simpa using hdc)
      · exact insertMerged_nodup ds c hnd.2

theorem insertMerged_filter :
    ∀ (acc : List Change) (c : Change) (n : String),
      (acc.map Change.Field).Nodup →
      (insertMerged acc c).filter (fun d => d.Field == n)
        = if c.Field == n then [c]
          else acc.filter (fun d => d.Field == n)
  | [], c, n, _ => by
    rw [insertMerged]
    by_cases hcn : (c.Field == n) = true <;>
      simp [List.filter, hcn]
  | d :: ds, c, n, hnd => by
    rw [insertMerged]
    rw [List.map_cons, List.nodup_cons] at hnd
    by_cases hdc : (d.Field == c.Field) = true
    · rw [if_pos hdc]
      have he : d.Field = c.Field := beq_iff_eq.mp hdc
      by_cases hcn : (c.Field == n) = true
      · have hds : ds.filter (fun d => d.Field == n) = [] := by
          rw [List.filter_eq_nil_iff]
          intro a ha hp
          have h1 : a.Field = n := beq_iff_eq.mp hp
          have h2 : c.Field = n := beq_iff_eq.mp hcn
          exact hnd.1 (by
            rw [he, h2, ← h1]
            exact List.mem_map_of_mem Change.Field ha)
        rw [if_pos hcn]
        rw [List.filter_cons, if_pos hcn, hds]
      · rw [if_neg hcn]
        have hdn : (d.Field == n) = false := by
          rw [he]
          revert hcn
          cases c.Field == n <;> simp
        rw [List.filter_cons, List.filter_cons]
        rw [if_neg (by simp [hcn]), if_neg (by simp [hdn])]
    · rw [if_neg hdc]
      rw [List.filter_cons]
      by_cases hcn : (c.Field == n) = true
      · rw [if_pos hcn]
        by_cases hdn : (d.Field == n) = true
        · have h1 : d.Field = n := beq_iff_eq.mp hdn
          have h2 : c.Field = n := beq_iff_eq.mp hcn
          exact absurd (beq_iff_eq.mpr (h1.trans h2.symm)) (by simpa using hdc)
        · rw [if_neg (by simp [hdn])]
          rw [insertMerged_filter ds c n hnd.2, if_pos hcn]
      · rw [if_neg hcn]
        rw [List.filter_cons]
        by_cases hdn : (d.Field == n) = true
        · rw [if_pos (by simp [hdn]), if_pos (by simp [hdn])]
          rw [insertMerged_filter ds c n hnd.2, if_neg hcn]
        · rw [if_neg (by simp [hdn]), if_neg (by simp [hdn])]
          rw [insertMerged_filter ds c n hnd.2, if_neg hcn]

theorem foldl_insertMerged_filter :
    ∀ (cs acc : List Change) (n : String),
      (acc.map Change.Field).Nodup →
      (cs.foldl insertMerged acc).filter (fun d => d.Field == n)
        = match cs.reverse.find? (fun d => d.Field == n) with
          | some c => [c]
          | none => acc.filter (fun d => d.Field == n)
  | [], acc, n, _ => rfl
  | c :: cs, acc, n, hnd => by
    rw [List.foldl_cons]
    rw [foldl_insertMerged_filter cs (insertMerged acc c) n
          (insertMerged_nodup acc c hnd)]
    rw [List.reverse_cons, find?_append]
    cases h : cs.reverse.find? (fun d => d.Field == n) with
    | some d => rfl
    | none =>
      rw [insertMerged_filter acc c n hnd]
      rw [List.find?_singleton]
      by_cases hcn : (c.Field == n) = true
      · simp [hcn]
      · have hcn2 : (c.Field == n) = false := by
          revert hcn
          cases c.Field == n <;> simp
        simp [hcn2]

/-- C8: `MergeChanges` keeps exactly one entry per distinct field name
occurring in its inputs, namely the last occurrence of that name
across all input lists concatenated in argument order (and no entry
for a name that does not occur): filtering the merge result by any
name yields exactly that last occurrence.  The statement is
independent of the materialisation order of Go's map iteration. -/
theorem merge_last_wins (changeLists : List (List Change)) (n : String) :
    (MergeChanges changeLists).filter (fun c => c.Field == n)
      = ((changeLists.flatten).reverse.find? (fun c => c.Field == n)).toList := by
  rw [MergeChanges]
  rw [foldl_insertMerged_filter changeLists.flatten [] n (by simp)]
  cases h : (changeLists.flatten).reverse.find? (fun c => c.Field == n) <;> rfl

theorem join_cons (s : String) (rest : List String) :
    String.join (s :: rest) = s ++ String.join rest := by
  rw [String.join_eq, String.join_eq, List.map_cons, List.flatten_cons]
  rfl

theorem formatChanges_foldl :
    ∀ (cs : List Change) (acc : String),
      List.foldl (fun r c => r ++ formatChangeLine c) acc cs
        = acc ++ String.join (cs.map formatChangeLine)
  | [], acc => by
    show acc = acc ++ String.join []
    rw [show String.join [] = "" from rfl]
    exact (String.append_empty acc).symm
  | c :: cs, acc => by
    rw [List.foldl_cons, formatChanges_foldl cs (acc ++ formatChangeLine c),
      List.map_cons, join_cons, String.append_assoc]

theorem formatChanges_join (cs : List Change) :
    FormatChanges cs = String.join (cs.map formatChangeLine) := by
  rw [FormatChanges, formatChanges_foldl cs ""]
  rw [show ("" ++ String.join (cs.map formatChangeLine))
        = String.join (cs.map formatChangeLine) from rfl]

/-- C9 (amended): for every change list whose tags are among the three
known change types, `FormatChanges` renders, for each change in input
order, exactly the line the specification gives (`Modified f: o → n`,
`Added f: n`, `Deleted f (was o)`), but each line is
newline-terminated rather than newline-joined — the output is the
concatenation of the lines each followed by `"\n"` — and the empty
list yields empty text. -/
theorem format_changes_amended (cs : List Change)
    (h : ∀ c ∈ cs, c.ChangeType = Modified ∨ c.ChangeType = Added ∨
      c.ChangeType = Deleted) :
    FormatChanges cs
      = String.join (cs.map (fun c => renderLineSpec c ++ "\n")) := by
  rw [formatChanges_join]
  congr 1
  apply List.map_congr_left
  intro c hc
  rcases h c hc with hct | hct | hct <;>
    rw [formatChangeLine, renderLineSpec, hct] <;>
    simp [String.append_assoc, show (")" ++ "\n" : String) = ")\n" from by decide]

/-- C9 counterexample: on a one-element change list the code's output
ends with a newline, so it is not the newline-joined text the claim
describes. -/
theorem format_newline_cex :
    FormatChanges [⟨"Age", Modified, .vInt 30, .vInt 31⟩]
        = "Modified Age: 30 → 31\n" ∧
    formatChangesJoinedSpec [⟨"Age", Modified, .vInt 30, .vInt 31⟩]
        = "Modified Age: 30 → 31" ∧
    FormatChanges [⟨"Age", Modified, .vInt 30, .vInt 31⟩]
        ≠ formatChangesJoinedSpec [⟨"Age", Modified, .vInt 30, .vInt 31⟩] := by
  refine ⟨rfl, rfl, ?_⟩
  decide

/-- C9 witness: the amended rendering law applied at a concrete
one-element list. -/
theorem format_changes_amended_witness :
    (∀ c ∈ [(⟨"Age", Modified, .vInt 30, .vInt 31⟩ : Change)],
      c.ChangeType = Modified ∨ c.ChangeType = Added ∨
        c.ChangeType = Deleted) ∧
    FormatChanges [⟨"Age", Modified, .vInt 30, .vInt 31⟩]
      = String.join
          ([(⟨"Age", Modified, .vInt 30, .vInt 31⟩ : Change)].map
            (fun c => renderLineSpec c ++ "\n")) :=
  ⟨by decide, format_changes_amended _ (by decide)⟩

theorem decodeChangeList_cons (j : JsonV) (js : List JsonV) (c : Change)
    (l : List Change) (h1 : decodeChange j = .ok c)
    (h2 : decodeChangeList js = .ok l) :
    decodeChangeList (j :: js) = .ok (c :: l) := by
  show Except.bind (decodeChange j)
      (fun c => Except.bind (decodeChangeList js)
        (fun cs => Except.ok (c :: cs))) = _
  rw [h1]
  show Except.bind (decodeChangeList js) (fun cs => Except.ok (c :: cs)) = _
  rw [h2]
  rfl

theorem decodeChange_encodeChange (c : Change) :
    decodeChange (ChangesToJSON.encodeChange c)
      = .ok { Field := c.Field, ChangeType := c.ChangeType,
              OldValue := decodeAny (encodeValue c.OldValue),
              NewValue := decodeAny (encodeValue c.NewValue) } := rfl

/-- C3 (amended): `ChangesFromJSON ∘ ChangesToJSON` always succeeds
and preserves `Field` and `ChangeType` losslessly, but replaces each
`OldValue`/`NewValue` by its generic JSON decoding
(`decodeAny ∘ encodeValue`): integer payloads come back as `float64`
numbers, typed nil pointers and nil slices as the nil interface, and
typed slices as generic `[]interface{}` values — so the decoded list
is deeply equal to the input only when every payload is already such a
generic JSON value. -/
theorem serialize_roundtrip_amended (cs : List Change) :
    ChangesFromJSON (ChangesToJSON cs)
      = .ok (cs.map (fun c =>
          { Field := c.Field, ChangeType := c.ChangeType,
            OldValue := decodeAny (encodeValue c.OldValue),
            NewValue := decodeAny (encodeValue c.NewValue) })) := by
  induction cs with
  | nil => rfl
  | cons c cs ih =>
    have ih2 : decodeChangeList (cs.map ChangesToJSON.encodeChange)
        = .ok (cs.map (fun c =>
            { Field := c.Field, ChangeType := c.ChangeType,
              OldValue := decodeAny (encodeValue c.OldValue),
              NewValue := decodeAny (encodeValue c.NewValue) })) := ih
    show decodeChangeList
        (ChangesToJSON.encodeChange c :: cs.map ChangesToJSON.encodeChange) = _
    rw [List.map_cons]
    exact decodeChangeList_cons _ _ _ _ (decodeChange_encodeChange c) ih2

/-- C3 counterexample: a change list with `int` payloads round-trips
to one with `float64` payloads, which `reflect.DeepEqual`
distinguishes — the decoded list is not deeply equal to the input. -/
theorem serialize_roundtrip_cex :
    ChangesFromJSON (ChangesToJSON [⟨"Age", Modified, .vInt 30, .vInt 31⟩])
        = .ok [⟨"Age", Modified, .vFloat 30, .vFloat 31⟩] ∧
    deepEqual (.vFloat 30) (.vInt 30) = false ∧
    ([⟨"Age", Modified, .vFloat 30, .vFloat 31⟩] : List Change)
        ≠ [⟨"Age", Modified, .vInt 30, .vInt 31⟩] := by
  exact ⟨rfl, rfl, by decide⟩

theorem gDiff_name {f : FieldDecl} {a b : Value} {c : Change}
    (h : gDiff f a b = some c) : c.Field = f.name := by
  rw [(gDiff_some h).2.2]

theorem diffAux_filter :
    ∀ (fs : List FieldDecl) (as bs : List Value) (i : Nat) (f : FieldDecl)
      (ov nv : Value),
      (fs.map FieldDecl.name).Nodup →
      fs.get? i = some f → as.get? i = some ov → bs.get? i = some nv →
      (diffAux fs as bs).filter (fun c => c.Field == f.name)
        = if f.exported && !deepEqual ov nv then
            [{ Field := f.name, ChangeType := classify f.ty ov nv,
               OldValue := ov, NewValue := nv }]
          else []
  | f0 :: fs, a0 :: as, b0 :: bs, i, f, ov, nv, hnd, hf, ha, hb => by
    rw [List.map_cons, List.nodup_cons] at hnd
    rw [show diffAux (f0 :: fs) (a0 :: as) (b0 :: bs)
          = (if f0.exported && !deepEqual a0 b0 then
              [{ Field := f0.name, ChangeType := classify f0.ty a0 b0,
                 OldValue := a0, NewValue := b0 }]
             else []) ++ diffAux fs as bs from rfl]
    rw [List.filter_append]
    cases i with
    | zero =>
      have hf0 : f0 = f := by simpa using hf
      have ha0 : a0 = ov := by simpa using ha
      have hb0 : b0 = nv := by simpa using hb
      subst hf0
      subst ha0
      subst hb0
      have htail : (diffAux fs as bs).filter (fun c => c.Field == f0.name)
          = [] := by
        rw [List.filter_eq_nil_iff]
        intro c hc hp
        have h1 : c.Field ∈ fs.map FieldDecl.name := by
          rw [diffAux_eq_perField] at hc
          exact perField_names gDiff (fun f a b c h => gDiff_name h) fs as bs c hc
        exact hnd.1 (beq_iff_eq.mp hp ▸ h1)
      rw [htail]
      by_cases hcond : (f0.exported && !deepEqual a0 b0) = true
      · rw [if_pos hcond]
        simp
      · rw [if_neg hcond]
        simp
    | succ j =>
      have hffs : f ∈ fs := List.get?_mem hf
      have hne : f0.name ≠ f.name := by
        intro he
        exact hnd.1 (he ▸ List.mem_map_of_mem FieldDecl.name hffs)
      have hhead : ((if f0.exported && !deepEqual a0 b0 then
          [{ Field := f0.name, ChangeType := classify f0.ty a0 b0,
             OldValue := a0, NewValue := b0 }]
          else []) : List Change).filter (fun c => c.Field == f.name) = [] := by
        by_cases hcond : (f0.exported && !deepEqual a0 b0) = true
        · rw [if_pos hcond]
          simp [hne]
        · rw [if_neg hcond]
          rfl
      rw [hhead, List.nil_append]
      exact diffAux_filter fs as bs j f ov nv hnd.2 hf ha hb
  | [], as, bs, i, f, ov, nv, _, hf, _, _ => by simp at hf
  | _ :: _, [], bs, i, f, ov, nv, _, _, ha, _ => by simp at ha
  | _ :: _, _ :: _, [], i, f, ov, nv, _, _, _, hb => by simp at hb

/-- C5: for every pair of well-formed same-shape records and every
field position, the diff emits no change for that field when the old
and new values are deeply equal or the field is unexported, and emits
exactly one change otherwise, carrying the field name, the old and new
values verbatim, and the change type computed by `classify` — the
code's case table, which matches the claim's: pointer/interface by
present/absent, slice by non-empty/empty, string by non-empty/empty,
`Modified` in every other unequal case; unexported fields are never
compared and never emitted. -/
theorem diff_classification (a b : Record) (cs : List Change)
    (hw1 : a.wf = true) (_hw2 : b.wf = true) (hs : a.shape = b.shape)
    (hcs : CompareStructs (.strct a) (.strct b) = .ok cs)
    (i : Nat) (f : FieldDecl) (ov nv : Value)
    (hf : a.shape.fields.get? i = some f)
    (ha : a.vals.get? i = some ov) (hb : b.vals.get? i = some nv) :
    cs.filter (fun c => c.Field == f.name)
      = if f.exported = false ∨ deepEqual ov nv = true then []
        else
          [{ Field := f.name, ChangeType := classify f.ty ov nv,
             OldValue := ov, NewValue := nv }] := by
  rw [Record.wf, Bool.and_eq_true] at hw1
  have hnd : (a.shape.fields.map FieldDecl.name).Nodup := by
    have h1 := hw1.1
    rw [Shape.namesNodup] at h1
    exact of_decide_eq_true h1
  have hcs2 : diffAux a.shape.fields a.vals b.vals = cs := by
    rw [compareStructs_strct_ok hs] at hcs
    injection hcs
  subst hcs2
  rw [diffAux_filter a.shape.fields a.vals b.vals i f ov nv hnd hf ha hb]
  by_cases he : f.exported = true
  · by_cases hde : deepEqual ov nv = true
    · have hL : ¬((f.exported && !deepEqual ov nv) = true) := by simp [hde]
      rw [if_neg hL, if_pos (Or.inr hde)]
    · have hde2 : deepEqual ov nv = false := by
        revert hde
        cases deepEqual ov nv <;> simp
      have hL : (f.exported && !deepEqual ov nv) = true := by simp [he, hde2]
      have hR : ¬(f.exported = false ∨ deepEqual ov nv = true) := by
        simp [he, hde2]
      rw [if_pos hL, if_neg hR]
  · have he2 : f.exported = false := by
      revert he
      cases f.exported <;> simp
    have hL : ¬((f.exported && !deepEqual ov nv) = true) := by simp [he2]
    rw [if_neg hL, if_pos (Or.inl he2)]

/-- C5 witness: the classification law applied at `rJohn`/`rJane`,
field position 2 (`Children`). -/
theorem diff_classification_witness :
    rJohn.wf = true ∧
    (([⟨"Age", Modified, .vInt 30, .vInt 31⟩,
       ⟨"Children", Deleted, .vSlice .tString (some [.vString "Alice"]),
        .vSlice .tString (some [])⟩] : List Change).filter
        (fun c => c.Field == "Children")
      = if (true : Bool) = false ∨
           deepEqual (.vSlice .tString (some [.vString "Alice"]))
             (.vSlice .tString (some [])) = true then []
        else
          [⟨"Children",
            classify (.tSlice .tString)
              (.vSlice .tString (some [.vString "Alice"]))
              (.vSlice .tString (some [])),
            .vSlice .tString (some [.vString "Alice"]),
            .vSlice .tString (some [])⟩]) :=
  ⟨by decide,
   diff_classification rJohn rJane
     [⟨"Age", Modified, .vInt 30, .vInt 31⟩,
      ⟨"Children", Deleted, .vSlice .tString (some [.vString "Alice"]),
       .vSlice .tString (some [])⟩]
     (by decide) (by decide) rfl rfl 2
     ⟨"Children", true, .tSlice .tString⟩
     (.vSlice .tString (some [.vString "Alice"]))
     (.vSlice .tString (some [])) rfl rfl rfl⟩

end StructSync
